import Mathlib

/-!
Verification development for the FlextGL generator
(`Turso3D/ThirdParty/FlextGL/flext.py`).

The Python source is shallowly embedded: XML elements become the `XmlNode`
inductive, Python dicts become association lists (`List (key × value)` with
newest binding consed in front, looked up by `List.lookup`), Python sets
become `Finset String`, and operations that can raise (`KeyError`,
`AttributeError` on a missing child, `exit(1)`) return `Option`/an error
result instead.  Profile lines are modelled with their trailing newline
stripped (as produced by Python file iteration every raw line is non-empty
and ends in the newline, so the `$`/`\s*$` anchors of the patterns coincide
with end-of-string on the stripped text, and a blank raw line matches the
`\s+$` branch of the comment pattern, i.e. the all-whitespace test below).
-/

namespace Flext

/-! ## Character classes used by the regular expressions of `flext.py` -/

/-- Python `\s` on ASCII input: space, tab, newline, carriage return,
vertical tab, form feed. -/
def isPySpace (c : Char) : Bool :=
  c == ' ' || c == '\t' || c == '\n' || c == '\r' || c == '\x0b' || c == '\x0c'

/-- Python `\d` on ASCII input (code points of `'0'`..`'9'`). -/
def isDigit (c : Char) : Bool :=
  48 ≤ c.toNat && c.toNat ≤ 57

/-- Python `\w` on ASCII input. -/
def isWordChar (c : Char) : Bool :=
  isDigit c || ('a' ≤ c && c ≤ 'z') || ('A' ≤ c && c ≤ 'Z') || c == '_'

/-- Numeric value of a decimal digit character (Python `int` of a one-char
digit string). -/
def digitVal (c : Char) : Nat := c.toNat - 48

/-! ## Profile file parsing (`Version`, `parse_profile`) -/

/-- `class Version`: `profile_or_api` is `es1`/`es2` for OpenGL ES, or the
desktop profile string (`""`, `"core"`, `"compatibility"`). -/
structure Version where
  api : String
  major : Nat
  minor : Nat
  profile : String
deriving Repr, DecidableEq

/-- `Version.__init__`, with major/minor supplied as the single digit
characters captured by the version pattern. -/
def mkVersion (d1 d2 : Char) (profile_or_api : String) : Version :=
  let api := if profile_or_api == "es1" || profile_or_api == "es2"
             then "gl" ++ profile_or_api else "gl"
  ⟨api, digitVal d1, digitVal d2, if api == "gl" then profile_or_api else ""⟩

/-- `Version.int_value`. -/
def Version.int_value (v : Version) : Nat := 10 * v.major + v.minor

/-- Match a literal character sequence at the head of the input, returning
the rest. -/
def dropLiteral : List Char → List Char → Option (List Char)
  | [], cs => some cs
  | _ :: _, [] => none
  | l :: ls, c :: cs => if c == l then dropLiteral ls cs else none

/-- `kw` followed by only whitespace (a keyword alternative followed by
`\s*$`). -/
def keywordSpaces (kw : List Char) (t : List Char) : Bool :=
  match dropLiteral kw t with
  | some r => r.all isPySpace
  | none => false

/-- The third group `(core|compatibility|es|)` followed by `\s*$`, tried in
alternation order on the text after `\s*`. -/
def groupSelect (t : List Char) : Option String :=
  if keywordSpaces "core".data t then some "core"
  else if keywordSpaces "compatibility".data t then some "compatibility"
  else if keywordSpaces "es".data t then some "es"
  else if t.all isPySpace then some ""
  else none

/-- The pattern `version\s+(\d)\.(\d)\s*(core|compatibility|es|)\s*$`
(`re.match`).  Returns the two digit captures and the third group. -/
def matchVersion (line : String) : Option (Char × Char × String) :=
  match dropLiteral "version".data line.data with
  | none => none
  | some cs =>
    match cs with
    | [] => none
    | c :: rest =>
      if isPySpace c then
        match rest.dropWhile isPySpace with
        | d1 :: c2 :: d2 :: t =>
          if isDigit d1 && (c2 == '.') && isDigit d2 then
            (groupSelect (t.dropWhile isPySpace)).map (fun g => (d1, d2, g))
          else none
        | _ => none
      else none

/-- The pattern `extension\s+(\w+)\s+(required|optional)\s*$` (`re.match`).
Returns the extension name and the second group. -/
def matchExtension (line : String) : Option (String × String) :=
  match dropLiteral "extension".data line.data with
  | none => none
  | some cs =>
    match cs with
    | [] => none
    | c :: rest =>
      if isPySpace c then
        let cs1 := rest.dropWhile isPySpace
        let name := cs1.takeWhile isWordChar
        let cs2 := cs1.dropWhile isWordChar
        if name.isEmpty then none
        else
          match cs2 with
          | [] => none
          | c2 :: rest2 =>
            if isPySpace c2 then
              let t := rest2.dropWhile isPySpace
              if keywordSpaces "required".data t then some (⟨name⟩, "required")
              else if keywordSpaces "optional".data t then some (⟨name⟩, "optional")
              else none
            else none
      else none

/-- The pattern `#.*$|\s+$` on a newline-stripped line: either the line
starts with `#`, or the raw line (stripped text plus its newline) is
whitespace only. -/
def matchComment (line : String) : Bool :=
  line.data.head? == some '#' || line.data.all isPySpace

/-- The three fatal conditions of `parse_profile`, each `print` + `exit(1)`
in the source, tagged with the 1-based line number reported. -/
inductive ProfileError where
  | dupVersion : Nat → ProfileError
  | dupExtension : Nat → ProfileError
  | badLine : Nat → ProfileError
deriving Repr, DecidableEq

/-- Outcome of `parse_profile`: the parsed `(version, extensions)` pair, or
the fatal error that terminated the run. -/
inductive PResult where
  | ok : Option Version → List (String × Bool) → PResult
  | error : ProfileError → PResult
deriving Repr, DecidableEq

/-- `Version` constructed at a version-pattern match (the `es` group picks
`es1`/`es2` from the major digit). -/
def versionOfMatch (d1 d2 : Char) (g3 : String) : Version :=
  if g3 == "es" then mkVersion d1 d2 (if d1 == '1' then "es1" else "es2")
  else mkVersion d1 d2 g3

/-- The loop body of `parse_profile`: `lineNo` is the number of the next
line, `version`/`exts` the state accumulated so far (the Python
`extension_set` always holds exactly the first components of `extensions`,
so membership is tested on the list). -/
def parseLinesFrom (lineNo : Nat) (version : Option Version)
    (exts : List (String × Bool)) : List String → PResult
  | [] => .ok version exts
  | line :: rest =>
    match matchVersion line with
    | some (d1, d2, g3) =>
      if version.isSome then .error (.dupVersion lineNo)
      else parseLinesFrom (lineNo + 1) (some (versionOfMatch d1 d2 g3)) exts rest
    | none =>
      match matchExtension line with
      | some (name, g2) =>
        if (exts.map Prod.fst).contains name then .error (.dupExtension lineNo)
        else parseLinesFrom (lineNo + 1) version (exts ++ [(name, g2 == "required")]) rest
      | none =>
        if matchComment line then parseLinesFrom (lineNo + 1) version exts rest
        else .error (.badLine lineNo)

/-- `parse_profile`, over the newline-stripped lines of the file. -/
def parse_profile (lines : List String) : PResult :=
  parseLinesFrom 1 none [] lines

/-! ## XML element model -/

/-- An `xml.etree.ElementTree` element: tag, attribute dictionary, text,
child elements, tail text. -/
inductive XmlNode where
  | mk : String → List (String × String) → Option String → List XmlNode → Option String → XmlNode

def XmlNode.tag : XmlNode → String
  | .mk t _ _ _ _ => t

def XmlNode.attrib : XmlNode → List (String × String)
  | .mk _ a _ _ _ => a

def XmlNode.text : XmlNode → Option String
  | .mk _ _ x _ _ => x

def XmlNode.children : XmlNode → List XmlNode
  | .mk _ _ _ c _ => c

def XmlNode.tail : XmlNode → Option String
  | .mk _ _ _ _ t => t

/-- `node.attrib[k]` / `k in node.attrib`. -/
def getAttr (n : XmlNode) (k : String) : Option String :=
  n.attrib.lookup k

/-- Child elements with the given tag, in document order. -/
def findTagged (t : String) (n : XmlNode) : List XmlNode :=
  n.children.filter (fun c => c.tag == t)

/-- `node.findall` on a `a/b/...` tag path (document order). -/
def findPath (n : XmlNode) : List String → List XmlNode
  | [] => [n]
  | t :: ts => (findTagged t n).flatMap (fun c => findPath c ts)

/-- `extract_names(node, sel)`: the `name` attributes of the elements
matching `sel` (a tag path) that carry a `name` attribute (`[@name]`). -/
def extract_names (n : XmlNode) (path : List String) : List String :=
  ((findPath n path).filter (fun e => (getAttr e "name").isSome)).map
    (fun e => (getAttr e "name").getD "")

/-- `safe_text`. -/
def safe_text (t : Option String) : String := t.getD ""

/-- `xml_extract_all_text(node, substitutes)`. -/
def xml_extract_all_text (node : XmlNode) (substitutes : List (String × String)) : String :=
  safe_text node.text ++ String.join (node.children.map (fun item =>
    (match substitutes.lookup item.tag with
     | some s => s
     | none => safe_text item.text) ++ safe_text item.tail))

/-! ## Entity model -/

/-- `class APISubset`. -/
structure APISubset where
  name : String
  types : List String
  enums : List String
  commands : List String
deriving Repr, DecidableEq

/-- `class Type` (`Type` is reserved in Lean, hence `Ty`).  `name` is an
`Option` because Python stores `node.find('./name').text`, which is `None`
for an empty `<name/>` child. -/
structure Ty where
  api : Option String
  name : Option String
  definition : String
  dependent : Option String
deriving Repr, DecidableEq

/-- `class Command`. -/
structure Command where
  name : String
  params : List (String × String)
  returntype : String
  requiredTypes : Finset String
deriving DecidableEq

/-- `class Function` (a command with its two-character API prefix
stripped). -/
structure Func where
  name : String
  params : List (String × String)
  returntype : String
deriving Repr, DecidableEq

/-! ## `parse_xml_types` -/

/-- Python falsiness of an optional string attribute (`None` and `""` are
falsy). -/
def pyFalsy : Option String → Bool
  | none => true
  | some s => s == ""

/-- The api filter `'api' in node.attrib and node.attrib['api'] != api`. -/
def apiMismatch (n : XmlNode) (api : String) : Bool :=
  match getAttr n "api" with
  | some a => a != api
  | none => false

/-- One `<type>` element to a `Ty`: name from the `name` attribute or the
`<name>` child (`None` = crash in Python, hence `Option`), definition via
`xml_extract_all_text` with the `apientry` substitution, dependent from the
`requires` attribute. -/
def typeNodeToTy (t : XmlNode) : Option Ty :=
  match getAttr t "name" with
  | some s =>
    some ⟨getAttr t "api", some s, xml_extract_all_text t [("apientry", "APIENTRY")],
          getAttr t "requires"⟩
  | none =>
    match t.children.find? (fun c => c.tag == "name") with
    | some c =>
      some ⟨getAttr t "api", c.text, xml_extract_all_text t [("apientry", "APIENTRY")],
            getAttr t "requires"⟩
    | none => none

/-- The api-filtered raw type list of `parse_xml_types`, before
specialization resolution. -/
def rawTypes (root : XmlNode) (api : String) : Option (List Ty) :=
  ((findPath root ["types", "type"]).filter (fun t => !apiMismatch t api)).mapM typeNodeToTy

/-- The reverse walk of `parse_xml_types`: `d` is `unique_type_names` (a
dict from type name to the api recorded for it; newest binding first), and
the first component accumulates `unique_types` in walk order. -/
def dedupRevD : List Ty → List (Option String × Option String) →
    List Ty × List (Option String × Option String)
  | [], d => ([], d)
  | t :: rest, d =>
    match d.lookup t.name with
    | some v =>
      if pyFalsy t.api && !pyFalsy v then dedupRevD rest d
      else
        let (ks, d') := dedupRevD rest ((t.name, t.api) :: d)
        (t :: ks, d')
    | none =>
      let (ks, d') := dedupRevD rest ((t.name, t.api) :: d)
      (t :: ks, d')

/-- The specialization-resolution stage of `parse_xml_types`: walk the list
in reverse, keep an entry unless a better specialization was already kept,
then restore original order. -/
def dedupTypes (types : List Ty) : List Ty :=
  (dedupRevD types.reverse []).1.reverse

/-- `parse_xml_types`. -/
def parse_xml_types (root : XmlNode) (api : String) : Option (List Ty) :=
  match rawTypes root api with
  | some raw => some (dedupTypes raw)
  | none => none

/-! ## `parse_xml_enums` -/

/-- One `<enum>` element to a `(name, value)` pair; missing `name` or
`value` attribute is a Python `KeyError`. -/
def enumNodeKV (e : XmlNode) : Option (String × String) :=
  match getAttr e "name", getAttr e "value" with
  | some name, some value =>
    some (name, match getAttr e "type" with
                | some t => value ++ t
                | none => value)
  | _, _ => none

/-- Build the enum dict: later entries are consed in front, so `lookup`
returns the last write, matching dict overwrite semantics. -/
def goEnumNodes (acc : List (String × String)) : List XmlNode → Option (List (String × String))
  | [] => some acc
  | e :: rest =>
    match enumNodeKV e with
    | some kv => goEnumNodes (kv :: acc) rest
    | none => none

/-- `parse_xml_enums`. -/
def parse_xml_enums (root : XmlNode) (api : String) : Option (List (String × String)) :=
  goEnumNodes [] ((findPath root ["enums", "enum"]).filter (fun e => !apiMismatch e api))

/-! ## `parse_xml_features` -/

/-- `parse_int_version`: `re.match('(\d)\.(\d)', s)`, `None` (a crash at
the `.group` call) if the prefix does not match. -/
def parse_int_version (s : String) : Option Nat :=
  match s.data with
  | d1 :: c2 :: d2 :: _ =>
    if isDigit d1 && (c2 == '.') && isDigit d2
    then some (10 * digitVal d1 + digitVal d2) else none
  | _ => none

/-- The profile guard on a `require`/`remove` section:
`api == 'gl' and 'profile' in attrib and attrib['profile'] != profile`. -/
def skipActionSet (api profile : String) (a : XmlNode) : Bool :=
  api == "gl" &&
    (match getAttr a "profile" with
     | some p => p != profile
     | none => false)

/-- Apply one `remove` section to one already-built subset (the three list
comprehensions of the source). -/
def removeFromSubset (a : XmlNode) (s : APISubset) : APISubset :=
  ⟨s.name,
   s.types.filter (fun e => !(extract_names a ["type"]).contains e),
   s.enums.filter (fun e => !(extract_names a ["enum"]).contains e),
   s.commands.filter (fun e => !(extract_names a ["command"]).contains e)⟩

/-- The inner loop of `parse_xml_features` over a feature's child
sections: accumulates the current feature's type/enum/command lists and
applies `remove` sections to every subset built so far. -/
def processActionSets (api profile : String) :
    List XmlNode → List APISubset → List String → List String → List String →
    List APISubset × List String × List String × List String
  | [], subsets, tl, el, cl => (subsets, tl, el, cl)
  | a :: rest, subsets, tl, el, cl =>
    if skipActionSet api profile a then
      processActionSets api profile rest subsets tl el cl
    else
      processActionSets api profile rest
        (if a.tag == "remove" then subsets.map (removeFromSubset a) else subsets)
        (if a.tag == "require" then tl ++ extract_names a ["type"] else tl)
        (if a.tag == "require" then el ++ extract_names a ["enum"] else el)
        (if a.tag == "require" then cl ++ extract_names a ["command"] else cl)

/-- The feature selector `./feature[@api='...'][@name][@number]`. -/
def featureSelected (api : String) (f : XmlNode) : Bool :=
  f.tag == "feature" &&
    (match getAttr f "api" with
     | some a => a == api
     | none => false) &&
    (getAttr f "name").isSome && (getAttr f "number").isSome

def selectedFeatures (api : String) (root : XmlNode) : List XmlNode :=
  root.children.filter (featureSelected api)

/-- The outer loop of `parse_xml_features`: one subset appended per
version-passing feature, named by stripping the first three characters. -/
def processFeatures (api profile : String) (intVersion : Nat) :
    List XmlNode → List APISubset → Option (List APISubset)
  | [], subsets => some subsets
  | f :: rest, subsets =>
    match parse_int_version ((getAttr f "number").getD "") with
    | none => none
    | some v =>
      if intVersion < v then processFeatures api profile intVersion rest subsets
      else
        match processActionSets api profile f.children subsets [] [] [] with
        | (subsets', tl, el, cl) =>
          processFeatures api profile intVersion rest
            (subsets' ++ [⟨((getAttr f "name").getD "").drop 3, tl, el, cl⟩])

/-- `parse_xml_features`. -/
def parse_xml_features (root : XmlNode) (intVersion : Nat) (api profile : String) :
    Option (List APISubset) :=
  processFeatures api profile intVersion (selectedFeatures api root) []

/-! ## `parse_xml_extensions` -/

/-- `root.find("./extensions/extension[@name='GL_<n>']")`. -/
def findExtension (root : XmlNode) (n : String) : Option XmlNode :=
  (findPath root ["extensions", "extension"]).find?
    (fun e => getAttr e "name" == some ("GL_" ++ n))

/-- The subset built for a present extension. -/
def extSubset (e : XmlNode) (n : String) : APISubset :=
  ⟨n, extract_names e ["require", "type"], extract_names e ["require", "enum"],
   extract_names e ["require", "command"]⟩

/-- The loop of `parse_xml_extensions`: a missing extension contributes a
warning message, a present one a subset. -/
def goExtensions (root : XmlNode) : List (String × Bool) → List APISubset × List String
  | [] => ([], [])
  | (n, _) :: rest =>
    let (subs, warns) := goExtensions root rest
    match findExtension root n with
    | none => (subs, (n ++ " is not an extension") :: warns)
    | some e => (extSubset e n :: subs, warns)

/-- `parse_xml_extensions`; the `print` for a missing extension is modelled
as the second component, the list of warning messages in emission order. -/
def parse_xml_extensions (root : XmlNode) (extensions : List (String × Bool)) :
    List APISubset × List String :=
  goExtensions root extensions

/-! ## `resolve_type_dependencies` -/

/-- Accumulate `commands[cmd].requiredTypes` over a subset's command list
(`KeyError` = `none`). -/
def cmdRequired (commands : List (String × Command)) (acc : Finset String) :
    List String → Option (Finset String)
  | [] => some acc
  | c :: rest =>
    match commands.lookup c with
    | some cmd => cmdRequired commands (acc ∪ cmd.requiredTypes) rest
    | none => none

/-- The first loop of `resolve_type_dependencies`: union of every subset's
type names and every listed command's `requiredTypes`. -/
def goBase (commands : List (String × Command)) (acc : Finset String) :
    List APISubset → Option (Finset String)
  | [] => some acc
  | s :: rest =>
    match cmdRequired commands (acc ∪ s.types.toFinset) s.commands with
    | some acc' => goBase commands acc' rest
    | none => none

def baseRequiredTypes (subsets : List APISubset) (commands : List (String × Command)) :
    Option (Finset String) :=
  goBase commands ∅ subsets

/-- One iteration of the dependent loop: add `type.dependent` when
`type.name in requiredTypes and type.dependent` (both Python-truthy). -/
def depStep (req : Finset String) (t : Ty) : Finset String :=
  match t.name, t.dependent with
  | some nm, some d => if nm ∈ req ∧ d ≠ "" then insert d req else req
  | _, _ => req

/-- The second loop of `resolve_type_dependencies` (the set is mutated
while the type list is walked in order). -/
def depPass (req : Finset String) : List Ty → Finset String
  | [] => req
  | t :: rest => depPass (depStep req t) rest

/-- `resolve_type_dependencies`. -/
def resolve_type_dependencies (subsets : List APISubset) (types : List Ty)
    (commands : List (String × Command)) : Option (Finset String) :=
  match baseRequiredTypes subsets commands with
  | some base => some (depPass base types)
  | none => none

/-! ## Output assembly -/

/-- `type.name in dependencies` (a `None` name is never in a set of
strings). -/
def nameInSet (t : Ty) (deps : Finset String) : Bool :=
  match t.name with
  | some n => decide (n ∈ deps)
  | none => false

/-- The loop of `generate_passthru`: a newline is prepended to each
definition except when the output accumulated so far is empty. -/
def goPassthru (deps : Finset String) (acc : String) : List Ty → String
  | [] => acc
  | t :: rest =>
    if nameInSet t deps then
      goPassthru deps ((if acc ≠ "" then acc ++ "\n" else acc) ++ t.definition) rest
    else goPassthru deps acc rest

/-- `generate_passthru`. -/
def generate_passthru (dependencies : Finset String) (types : List Ty) : String :=
  goPassthru dependencies "" types

/-- The inner loop of `generate_enums` over one subset's enum names
(`KeyError` on a missing enum = `none`). -/
def genEnumLines (enums : List (String × String)) (acc : String) :
    List String → Option String
  | [] => some acc
  | n :: rest =>
    match enums.lookup n with
    | some v => genEnumLines enums (acc ++ "\n#define " ++ n ++ " " ++ v) rest
    | none => none

/-- The outer loop of `generate_enums`: a `/* GL_<name> */` header per
non-empty subset, blank line between sections. -/
def goEnumsDecl (enums : List (String × String)) (acc : String) :
    List APISubset → Option String
  | [] => some acc
  | s :: rest =>
    if s.enums.isEmpty then goEnumsDecl enums acc rest
    else
      match genEnumLines enums
          ((if acc ≠ "" then acc ++ "\n\n" else acc) ++ "/* GL_" ++ s.name ++ " */\n")
          s.enums with
      | some acc' => goEnumsDecl enums acc' rest
      | none => none

/-- `generate_enums`. -/
def generate_enums (subsets : List APISubset) (enums : List (String × String)) :
    Option String :=
  goEnumsDecl enums "" subsets

/-- The inner loop of `generate_functions` over one subset's command names:
skip names already in `seen` (the global `function_set`), look the rest up
(`KeyError` = `none`), strip the two-character API prefix. -/
def emitFunctions (commands : List (String × Command)) (seen : Finset String) :
    List String → Option (List Func × Finset String)
  | [] => some ([], seen)
  | n :: rest =>
    if n ∈ seen then emitFunctions commands seen rest
    else
      match commands.lookup n with
      | some c =>
        match emitFunctions commands (insert n seen) rest with
        | some (fs, seen') => some (⟨c.name.drop 2, c.params, c.returntype⟩ :: fs, seen')
        | none => none
      | none => none

/-- The outer loop of `generate_functions`. -/
def goFunctions (commands : List (String × Command)) (seen : Finset String) :
    List APISubset → Option (List (String × List Func))
  | [] => some []
  | s :: rest =>
    match emitFunctions commands seen s.commands with
    | some (fs, seen') =>
      match goFunctions commands seen' rest with
      | some tail => some ((s.name, fs) :: tail)
      | none => none
    | none => none

/-- `generate_functions`. -/
def generate_functions (subsets : List APISubset) (commands : List (String × Command)) :
    Option (List (String × List Func)) :=
  goFunctions commands ∅ subsets

/-! ## Characterization functions

Compositional descriptions of the destructive loops above; the claim
theorems prove the source functions equal to (or bounded by) these. -/

/-- Specialization resolution, described on the original declaration
order: an entry is dropped exactly when its api is Python-falsy and a
same-named entry with a truthy api occurs later in the list. -/
def keptTypes : List Ty → List Ty
  | [] => []
  | t :: rest =>
    if pyFalsy t.api && rest.any (fun u => u.name == t.name && !pyFalsy u.api)
    then keptTypes rest
    else t :: keptTypes rest

/-- The names contributed by the non-skipped `require` sections of a
feature's children, for one selector. -/
def requireNames (api profile sel : String) (children : List XmlNode) : List String :=
  (children.filter (fun a => !skipActionSet api profile a && a.tag == "require")).flatMap
    (fun a => extract_names a [sel])

/-- The names listed by the non-skipped `remove` sections of a feature's
children, for one selector. -/
def removeNames (api profile sel : String) (children : List XmlNode) : List String :=
  (children.filter (fun a => !skipActionSet api profile a && a.tag == "remove")).flatMap
    (fun a => extract_names a [sel])

/-- Whether a feature's `number` parses and is within the requested
version. -/
def versionOK (v : Nat) (f : XmlNode) : Bool :=
  match parse_int_version ((getAttr f "number").getD "") with
  | some n => n ≤ v
  | none => false

/-- All names removed by the version-passing features of `fs`, for one
selector. -/
def laterRemoveNames (api profile sel : String) (v : Nat) (fs : List XmlNode) : List String :=
  (fs.filter (versionOK v)).flatMap (fun f => removeNames api profile sel f.children)

/-- Strip from a subset every name removed by the version-passing features
of `fs`. -/
def stripSubset (api profile : String) (v : Nat) (fs : List XmlNode) (s : APISubset) :
    APISubset :=
  ⟨s.name,
   s.types.filter (fun e => !(laterRemoveNames api profile "type" v fs).contains e),
   s.enums.filter (fun e => !(laterRemoveNames api profile "enum" v fs).contains e),
   s.commands.filter (fun e => !(laterRemoveNames api profile "command" v fs).contains e)⟩

/-- Strip from a subset every name removed by the non-skipped `remove`
sections among one feature's children. -/
def stripByRemoves (api profile : String) (children : List XmlNode) (s : APISubset) :
    APISubset :=
  ⟨s.name,
   s.types.filter (fun e => !(removeNames api profile "type" children).contains e),
   s.enums.filter (fun e => !(removeNames api profile "enum" children).contains e),
   s.commands.filter (fun e => !(removeNames api profile "command" children).contains e)⟩

/-- Compositional description of `parse_xml_features`: each version-passing
feature yields the subset of its own `require` names, filtered by the
`remove` names of all LATER version-passing features (the retroactive
destructive removes of the source, read forwards). -/
def featuresSpec (api profile : String) (v : Nat) : List XmlNode → Option (List APISubset)
  | [] => some []
  | f :: rest =>
    match parse_int_version ((getAttr f "number").getD "") with
    | none => none
    | some n =>
      if v < n then featuresSpec api profile v rest
      else
        match featuresSpec api profile v rest with
        | some tail =>
          some (stripSubset api profile v rest
                  ⟨((getAttr f "name").getD "").drop 3,
                   requireNames api profile "type" f.children,
                   requireNames api profile "enum" f.children,
                   requireNames api profile "command" f.children⟩ :: tail)
        | none => none

/-- The command names a subset emits in `generate_functions`, given the
concatenated raw command lists of all earlier subsets: first occurrences
only. -/
def emitGroup (prior : List String) : List String → List String
  | [] => []
  | c :: rest => if prior.contains c then emitGroup prior rest
                 else c :: emitGroup (prior ++ [c]) rest

/-- Compositional description of `generate_functions`: each subset's
emitted functions are its first-occurrence command names (relative to the
concatenation of all earlier subsets' raw command lists), looked up and
prefix-stripped. -/
def specFunGroups (commands : List (String × Command)) (prior : List String) :
    List APISubset → Option (List (String × List Func))
  | [] => some []
  | s :: rest =>
    match (emitGroup prior s.commands).mapM (fun n =>
        (commands.lookup n).map (fun c => (⟨c.name.drop 2, c.params, c.returntype⟩ : Func))) with
    | some fs =>
      match specFunGroups commands (prior ++ s.commands) rest with
      | some tail => some ((s.name, fs) :: tail)
      | none => none
    | none => none

/-- The dependents contributed by exactly one level of expansion from a
base set. -/
def oneHopDeps (base : Finset String) (types : List Ty) : Finset String :=
  (types.filterMap (fun t =>
    match t.name, t.dependent with
    | some nm, some d => if nm ∈ base ∧ d ≠ "" then some d else none
    | _, _ => none)).toFinset

/-- Join a list of strings with single newlines. -/
def joinNL : List String → String
  | [] => ""
  | [d] => d
  | d :: rest => d ++ "\n" ++ joinNL rest

/-- A newline-prefixed join, describing what `generate_passthru` appends
after a non-empty accumulator. -/
def tailJoin : List String → String
  | [] => ""
  | d :: rest => "\n" ++ d ++ tailJoin rest

/-- Truthiness of a name's entry in the `unique_type_names` dict. -/
def dictTruthy (d : List (Option String × Option String)) (nm : Option String) : Bool :=
  match d.lookup nm with
  | some v => !pyFalsy v
  | none => false

/-- `keptTypes` relative to a starting dict: an entry is dropped when its
api is falsy and either the dict already records a truthy api for its name
or a truthy same-named entry occurs later. -/
def keptWithD (d : List (Option String × Option String)) : List Ty → List Ty
  | [] => []
  | t :: rest =>
    if pyFalsy t.api &&
        (dictTruthy d t.name || rest.any (fun u => u.name == t.name && !pyFalsy u.api))
    then keptWithD d rest
    else t :: keptWithD d rest

/-! ## Concrete document builders, used by witnesses and counterexamples -/

/-- A `<type name="n"/>` reference inside a require/remove section. -/
def typeRef (n : String) : XmlNode := .mk "type" [("name", n)] none [] none

/-- An `<enum name="n"/>` reference inside a require section. -/
def enumRef (n : String) : XmlNode := .mk "enum" [("name", n)] none [] none

/-- A `<require>` section. -/
def requireNode (ts : List XmlNode) : XmlNode := .mk "require" [] none ts none

/-- A `<remove>` section. -/
def removeNode (ts : List XmlNode) : XmlNode := .mk "remove" [] none ts none

/-- A `<feature api="gl" name="nm" number="num">` block. -/
def featureNode (nm num : String) (sections : List XmlNode) : XmlNode :=
  .mk "feature" [("api", "gl"), ("name", nm), ("number", num)] none sections none

/-- A registry root. -/
def rootNode (cs : List XmlNode) : XmlNode := .mk "registry" [] none cs none

/-- A `<type>` declaration with a `name` attribute and an optional `api`
attribute. -/
def tyNode (n : String) (api : Option String) : XmlNode :=
  .mk "type" ([("name", n)] ++ (match api with | some a => [("api", a)] | none => []))
    none [] none

/-- A root holding only a `<types>` table. -/
def typesRoot (ts : List XmlNode) : XmlNode := rootNode [.mk "types" [] none ts none]

/-- An `<enum name="n" value="v"/>` declaration with an optional `api`
attribute. -/
def enumDef (n v : String) (api : Option String) : XmlNode :=
  .mk "enum" ([("name", n), ("value", v)] ++
    (match api with | some a => [("api", a)] | none => [])) none [] none

/-- The document for the C9 counterexample: enum `E` is declared only for
api `gles2`, but the `gl` 1.0 feature requires it. -/
def c9root : XmlNode := rootNode [
  .mk "enums" [] none [enumDef "E" "1" (some "gles2")] none,
  featureNode "GL_VERSION_1_0" "1.0" [requireNode [enumRef "E"]]]

/-! # Theorems -/

/-! ## Profile parsing lemmas -/

theorem parseLinesFrom_cons_version {x : String} {d1 d2 : Char} {g3 : String}
    (hm : matchVersion x = some (d1, d2, g3)) (k : Nat) (v : Option Version)
    (e : List (String × Bool)) (rest : List String) :
    parseLinesFrom k v e (x :: rest) =
      if v.isSome then .error (.dupVersion k)
      else parseLinesFrom (k + 1) (some (versionOfMatch d1 d2 g3)) e rest := by
  simp only [parseLinesFrom, hm]

theorem parseLinesFrom_cons_ext {x name g2 : String}
    (hm : matchVersion x = none) (hx : matchExtension x = some (name, g2))
    (k : Nat) (v : Option Version) (e : List (String × Bool)) (rest : List String) :
    parseLinesFrom k v e (x :: rest) =
      if (e.map Prod.fst).contains name then .error (.dupExtension k)
      else parseLinesFrom (k + 1) v (e ++ [(name, g2 == "required")]) rest := by
  simp only [parseLinesFrom, hm, hx]

theorem parseLinesFrom_cons_other {x : String}
    (hm : matchVersion x = none) (hx : matchExtension x = none)
    (k : Nat) (v : Option Version) (e : List (String × Bool)) (rest : List String) :
    parseLinesFrom k v e (x :: rest) =
      if matchComment x then parseLinesFrom (k + 1) v e rest
      else .error (.badLine k) := by
  simp only [parseLinesFrom, hm, hx]

theorem parseLinesFrom_append_error (xs : List String) :
    ∀ (ys : List String) (k : Nat) (v : Option Version) (e : List (String × Bool))
      (err : ProfileError),
    parseLinesFrom k v e xs = .error err →
    parseLinesFrom k v e (xs ++ ys) = .error err := by
  induction xs with
  | nil =>
    intro ys k v e err h
    simp only [parseLinesFrom] at h
    cases h
  | cons x xs ih =>
    intro ys k v e err h
    rw [List.cons_append]
    cases hm : matchVersion x with
    | some m =>
      obtain ⟨d1, d2, g3⟩ := m
      rw [parseLinesFrom_cons_version hm] at h ⊢
      by_cases hv : v.isSome
      · rwa [if_pos hv] at h ⊢
      · rw [if_neg hv] at h ⊢
        exact ih ys _ _ _ _ h
    | none =>
      cases hx : matchExtension x with
      | some p =>
        obtain ⟨name, g2⟩ := p
        rw [parseLinesFrom_cons_ext hm hx] at h ⊢
        by_cases hd : (e.map Prod.fst).contains name
        · rwa [if_pos hd] at h ⊢
        · rw [if_neg hd] at h ⊢
          exact ih ys _ _ _ _ h
      | none =>
        rw [parseLinesFrom_cons_other hm hx] at h ⊢
        by_cases hc : matchComment x
        · rw [if_pos hc] at h ⊢
          exact ih ys _ _ _ _ h
        · rwa [if_neg hc] at h ⊢

theorem parseLinesFrom_append_ok (xs : List String) :
    ∀ (ys : List String) (k : Nat) (v v' : Option Version)
      (e e' : List (String × Bool)),
    parseLinesFrom k v e xs = .ok v' e' →
    parseLinesFrom k v e (xs ++ ys) = parseLinesFrom (k + xs.length) v' e' ys := by
  induction xs with
  | nil =>
    intro ys k v v' e e' h
    simp only [parseLinesFrom] at h
    cases h
    simp [parseLinesFrom]
  | cons x xs ih =>
    intro ys k v v' e e' h
    rw [List.cons_append]
    have harith : k + 1 + xs.length = k + (x :: xs).length := by
      simp only [List.length_cons]
      omega
    cases hm : matchVersion x with
    | some m =>
      obtain ⟨d1, d2, g3⟩ := m
      rw [parseLinesFrom_cons_version hm] at h ⊢
      by_cases hv : v.isSome
      · rw [if_pos hv] at h; cases h
      · rw [if_neg hv] at h ⊢
        rw [ih ys _ _ _ _ _ h, harith]
    | none =>
      cases hx : matchExtension x with
      | some p =>
        obtain ⟨name, g2⟩ := p
        rw [parseLinesFrom_cons_ext hm hx] at h ⊢
        by_cases hd : (e.map Prod.fst).contains name
        · rw [if_pos hd] at h; cases h
        · rw [if_neg hd] at h ⊢
          rw [ih ys _ _ _ _ _ h, harith]
      | none =>
        rw [parseLinesFrom_cons_other hm hx] at h ⊢
        by_cases hc : matchComment x
        · rw [if_pos hc] at h ⊢
          rw [ih ys _ _ _ _ _ h, harith]
        · rw [if_neg hc] at h; cases h

theorem parseLinesFrom_ok_version_isSome (xs : List String) :
    ∀ (k : Nat) (v v' : Option Version) (e e' : List (String × Bool)),
    parseLinesFrom k v e xs = .ok v' e' →
    (v.isSome ∨ ∃ x ∈ xs, (matchVersion x).isSome) → v'.isSome := by
  induction xs with
  | nil =>
    intro k v v' e e' h hd
    simp only [parseLinesFrom] at h
    cases h
    rcases hd with h1 | ⟨x, hx, _⟩
    · exact h1
    · cases hx
  | cons x xs ih =>
    intro k v v' e e' h hd
    cases hm : matchVersion x with
    | some m =>
      obtain ⟨d1, d2, g3⟩ := m
      rw [parseLinesFrom_cons_version hm] at h
      by_cases hv : v.isSome
      · rw [if_pos hv] at h; cases h
      · rw [if_neg hv] at h
        exact ih _ _ _ _ _ h (Or.inl rfl)
    | none =>
      have hd' : v.isSome ∨ ∃ y ∈ xs, (matchVersion y).isSome := by
        rcases hd with h1 | ⟨y, hy, hys⟩
        · exact Or.inl h1
        · rcases List.mem_cons.mp hy with rfl | hy'
          · rw [hm] at hys; cases hys
          · exact Or.inr ⟨y, hy', hys⟩
      cases hx : matchExtension x with
      | some p =>
        obtain ⟨name, g2⟩ := p
        rw [parseLinesFrom_cons_ext hm hx] at h
        by_cases hdup : (e.map Prod.fst).contains name
        · rw [if_pos hdup] at h; cases h
        · rw [if_neg hdup] at h
          exact ih _ _ _ _ _ h hd'
      | none =>
        rw [parseLinesFrom_cons_other hm hx] at h
        by_cases hc : matchComment x
        · rw [if_pos hc] at h
          exact ih _ _ _ _ _ h hd'
        · rw [if_neg hc] at h; cases h

theorem get_mem_take {α : Type _} (l : List α) (i j : Nat) (hij : i < j)
    (hi : i < l.length) : l.get ⟨i, hi⟩ ∈ l.take j := by
  have h1 : i < (l.take j).length := by
    simp only [List.length_take]
    omega
  have h2 : (l.take j).get ⟨i, h1⟩ = l.get ⟨i, hi⟩ := by
    simp [List.getElem_take']
  rw [← h2]
  exact (l.take j).get_mem _ _

/-- C7: corrected.  A profile containing two version-matching lines always
terminates the run with a fatal error, but the reported error is the
duplicate-version one only when the lines before the second version line
parse without a fatal error of their own; an earlier bad line or duplicate
extension preempts it (see the counterexample). -/
theorem parse_profile_duplicate_version (lines : List String) (i j : Nat)
    (hij : i < j) (hi : i < lines.length) (hj : j < lines.length)
    (hvi : (matchVersion (lines.get ⟨i, hi⟩)).isSome)
    (hvj : (matchVersion (lines.get ⟨j, hj⟩)).isSome) :
    (∃ err, parse_profile lines = .error err) ∧
    (∀ (v' : Option Version) (e' : List (String × Bool)),
      parseLinesFrom 1 none [] (lines.take j) = .ok v' e' →
      parse_profile lines = .error (.dupVersion (j + 1))) := by
  cases hres : parseLinesFrom 1 none [] (lines.take j) with
  | error err =>
    have h2 := parseLinesFrom_append_error (lines.take j) (lines.drop j) 1 none [] err hres
    rw [List.take_append_drop] at h2
    refine ⟨⟨err, h2⟩, ?_⟩
    intro v' e' hok
    cases hok
  | ok v' e' =>
    have hvset : v'.isSome :=
      parseLinesFrom_ok_version_isSome _ _ _ _ _ _ hres
        (Or.inr ⟨lines.get ⟨i, hi⟩, get_mem_take lines i j hij hi, hvi⟩)
    have h2 := parseLinesFrom_append_ok (lines.take j) (lines.drop j) 1 none v' [] e' hres
    rw [List.take_append_drop] at h2
    have hlen : (lines.take j).length = j := by
      simp only [List.length_take]
      omega
    have hdrop : lines.drop j = lines.get ⟨j, hj⟩ :: lines.drop (j + 1) := by
      rw [List.drop_eq_getElem_cons hj]
      rfl
    rw [hlen, hdrop] at h2
    obtain ⟨⟨d1, d2, g3⟩, hm⟩ := Option.isSome_iff_exists.mp hvj
    rw [parseLinesFrom_cons_version hm, if_pos hvset] at h2
    have harith : 1 + j = j + 1 := by omega
    rw [harith] at h2
    exact ⟨⟨.dupVersion (j + 1), h2⟩, fun _ _ _ => h2⟩

/-- C7 counterexample: a profile whose two version lines surround a
malformed line is reported as a syntax error on line 2, not as a
duplicate-version error. -/
theorem parse_profile_duplicate_version_cex :
    parse_profile ["version 1.0", "!!", "version 1.0"] = .error (.badLine 2) := by
  decide

/-- C7 witness: with a well-formed prefix the duplicate-version error is
reported at the second version line. -/
theorem parse_profile_duplicate_version_witness :
    parse_profile ["version 1.0", "version 2.0"] = .error (.dupVersion 2) := by
  have h := parse_profile_duplicate_version ["version 1.0", "version 2.0"] 0 1
    (by decide) (by decide) (by decide) (by decide) (by decide)
  exact h.2 (some (versionOfMatch '1' '0' "")) [] (by decide)

/-! ## Digit lemmas and the version pattern -/

theorem isDigit_toNat {c : Char} (h : isDigit c = true) :
    48 ≤ c.toNat ∧ c.toNat ≤ 57 := by
  simpa [isDigit, Bool.and_eq_true, decide_eq_true_eq] using h

theorem digitVal_le_nine {c : Char} (h : isDigit c = true) : digitVal c ≤ 9 := by
  have h2 := isDigit_toNat h
  unfold digitVal
  omega

theorem isDigit_beq_false {c d : Char} (h : isDigit c = true)
    (hd : isDigit d = false) : (c == d) = false := by
  rw [beq_eq_false_iff_ne]
  rintro rfl
  rw [h] at hd
  cases hd

theorem isPySpace_false_of_isDigit {c : Char} (h : isDigit c = true) :
    isPySpace c = false := by
  simp only [isPySpace, Bool.or_eq_false_iff]
  refine ⟨⟨⟨⟨⟨?_, ?_⟩, ?_⟩, ?_⟩, ?_⟩, ?_⟩ <;>
  · rw [beq_eq_false_iff_ne]
    rintro rfl
    exact absurd h (by decide)

theorem dropLiteral_append (l cs : List Char) : dropLiteral l (l ++ cs) = some cs := by
  induction l with
  | nil => rfl
  | cons a l ih => simp [dropLiteral, ih]

/-- The version-group alternation rejects a tail starting with a digit. -/
theorem groupSelect_digit_none {c : Char} (w : List Char) (hc : isDigit c = true) :
    groupSelect (c :: w) = none := by
  unfold groupSelect
  have k1 : keywordSpaces "core".data (c :: w) = false := by
    simp only [keywordSpaces, show "core".data = ['c', 'o', 'r', 'e'] from rfl, dropLiteral]
    rw [isDigit_beq_false hc (by decide)]
    simp
  have k2 : keywordSpaces "compatibility".data (c :: w) = false := by
    simp only [keywordSpaces,
      show "compatibility".data
        = ['c', 'o', 'm', 'p', 'a', 't', 'i', 'b', 'i', 'l', 'i', 't', 'y'] from rfl,
      dropLiteral]
    rw [isDigit_beq_false hc (by decide)]
    simp
  have k3 : keywordSpaces "es".data (c :: w) = false := by
    simp only [keywordSpaces, show "es".data = ['e', 's'] from rfl, dropLiteral]
    rw [isDigit_beq_false hc (by decide)]
    simp
  have k4 : (c :: w).all isPySpace = false := by
    simp [List.all_cons, isPySpace_false_of_isDigit hc]
  rw [k1, k2, k3, k4]
  simp

/-- A version line whose major or minor component has two or more digits
fails the version pattern. -/
theorem matchVersion_multidigit (m n rest : String)
    (hm : m.data.all isDigit = true) (hn : n.data.all isDigit = true)
    (hlen : 2 ≤ m.length ∨ 2 ≤ n.length) :
    matchVersion ("version " ++ m ++ "." ++ n ++ rest) = none := by
  have hdata : ("version " ++ m ++ "." ++ n ++ rest).data
      = "version".data ++ (' ' :: (m.data ++ ('.' :: (n.data ++ rest.data)))) := by
    simp only [String.data_append, List.append_assoc]
    rfl
  have hlen2 : 2 ≤ m.data.length ∨ 2 ≤ n.data.length := hlen
  rw [matchVersion, hdata, dropLiteral_append]
  simp only [show isPySpace ' ' = true from rfl, if_true]
  rcases hmd : m.data with - | ⟨d, md⟩
  · -- m = "": the '.' is taken as the major digit and fails `isDigit`
    rw [hmd] at hlen2
    simp only [List.length_nil] at hlen2
    have h2 : 2 ≤ n.data.length := by omega
    rcases hnd : n.data with - | ⟨n0, nd⟩
    · rw [hnd] at h2; simp at h2
    rcases hnd2 : nd with - | ⟨n1, ndx⟩
    · rw [hnd, hnd2] at h2; simp at h2
    simp [hnd2, List.dropWhile_cons, show isPySpace '.' = false from rfl,
          show isDigit '.' = false from rfl]
  · rcases hmd2 : md with - | ⟨d2, md2⟩
    · -- m is a single digit: the minor capture is the first digit of n and
      -- the rest of n blocks the trailing group
      rw [hmd, hmd2] at hm
      rw [hmd] at hlen2
      simp only [hmd2, List.length_cons, List.length_nil] at hlen2
      have h2 : 2 ≤ n.data.length := by omega
      rcases hnd : n.data with - | ⟨n0, nd⟩
      · rw [hnd] at h2; simp at h2
      rcases hnd2 : nd with - | ⟨n1, ndx⟩
      · rw [hnd, hnd2] at h2; simp at h2
      rw [hnd, hnd2] at hn
      simp only [List.all_cons, Bool.and_eq_true] at hm hn
      simp only [hmd2, hnd2, List.cons_append, List.nil_append]
      simp only [List.dropWhile_cons, isPySpace_false_of_isDigit hm.1,
                 Bool.false_eq_true, if_false]
      simp only [hm.1, hn.1, beq_self_eq_true, Bool.and_self, Bool.true_and, if_true]
      simp only [List.dropWhile_cons, isPySpace_false_of_isDigit hn.2.1,
                 Bool.false_eq_true, if_false]
      rw [groupSelect_digit_none _ hn.2.1]
      rfl
    · -- m has two or more digits: the second digit is not the literal '.'
      rw [hmd, hmd2] at hm
      simp only [List.all_cons, Bool.and_eq_true] at hm
      simp only [hmd2, List.cons_append]
      simp only [List.dropWhile_cons, isPySpace_false_of_isDigit hm.1,
                 Bool.false_eq_true, if_false]
      rcases hmd3 : md2 with - | ⟨d3, md3⟩ <;>
        simp [isDigit_beq_false hm.2.1 (show isDigit '.' = false from rfl)]

/-- A successful version match captures digit characters. -/
theorem matchVersion_digits {line : String} {d1 d2 : Char} {g3 : String}
    (h : matchVersion line = some (d1, d2, g3)) :
    isDigit d1 = true ∧ isDigit d2 = true := by
  unfold matchVersion at h
  repeat' split at h
  all_goals simp_all [Bool.and_eq_true, Option.map_eq_some']
  obtain ⟨a, -, rfl, rfl, -⟩ := h
  rename_i hcond
  exact ⟨hcond.1.1, hcond.2⟩

/-- A line of version shape whose major or minor component has two or more
digits matches none of the three profile patterns, so the loop reports it
as a bad line. -/
theorem version_multidigit_badLine (m n rest : String) (k : Nat)
    (v : Option Version) (e : List (String × Bool)) (restLines : List String)
    (hm : m.data.all isDigit = true) (hn : n.data.all isDigit = true)
    (hlen : 2 ≤ m.length ∨ 2 ≤ n.length) :
    parseLinesFrom k v e (("version " ++ m ++ "." ++ n ++ rest) :: restLines) =
      .error (.badLine k) := by
  have hdata : ("version " ++ m ++ "." ++ n ++ rest).data
      = "version".data ++ (' ' :: (m.data ++ ('.' :: (n.data ++ rest.data)))) := by
    simp only [String.data_append, List.append_assoc]
    rfl
  have hmv : matchVersion ("version " ++ m ++ "." ++ n ++ rest) = none :=
    matchVersion_multidigit m n rest hm hn hlen
  have hext : matchExtension ("version " ++ m ++ "." ++ n ++ rest) = none := by
    unfold matchExtension
    rw [hdata]
    rfl
  have hcom : matchComment ("version " ++ m ++ "." ++ n ++ rest) = false := by
    unfold matchComment
    rw [hdata]
    rfl
  rw [parseLinesFrom_cons_other hmv hext, hcom]
  simp

/-- Any version stored by the parsing loop satisfies the two-digit
bound. -/
theorem parseLinesFrom_ok_bound (xs : List String) :
    ∀ (k : Nat) (v : Option Version) (e e' : List (String × Bool)) (w : Version),
    (∀ u, v = some u → u.int_value ≤ 99) →
    parseLinesFrom k v e xs = .ok (some w) e' → w.int_value ≤ 99 := by
  induction xs with
  | nil =>
    intro k v e e' w hv h
    simp only [parseLinesFrom] at h
    cases h
    exact hv w rfl
  | cons x xs ih =>
    intro k v e e' w hv h
    cases hmv : matchVersion x with
    | some p =>
      obtain ⟨d1, d2, g3⟩ := p
      rw [parseLinesFrom_cons_version hmv] at h
      by_cases hs : v.isSome
      · rw [if_pos hs] at h; cases h
      · rw [if_neg hs] at h
        have hd := matchVersion_digits hmv
        refine ih _ _ _ _ _ ?_ h
        intro u hu
        cases hu
        have b1 := digitVal_le_nine hd.1
        have b2 := digitVal_le_nine hd.2
        unfold versionOfMatch mkVersion Version.int_value
        split <;> simp <;> omega
    | none =>
      cases hx : matchExtension x with
      | some p =>
        obtain ⟨name, g2⟩ := p
        rw [parseLinesFrom_cons_ext hmv hx] at h
        by_cases hd : (e.map Prod.fst).contains name
        · rw [if_pos hd] at h; cases h
        · rw [if_neg hd] at h
          exact ih _ _ _ _ _ hv h
      | none =>
        rw [parseLinesFrom_cons_other hmv hx] at h
        by_cases hc : matchComment x
        · rw [if_pos hc] at h
          exact ih _ _ _ _ _ hv h
        · rw [if_neg hc] at h; cases h

/-- C10: confirmed.  A `version` line is accepted only with single-digit
major and minor components: a line of version shape with a multi-digit
component matches no pattern and is reported as a fatal bad-line error at
its own line number, and every successfully parsed `Version` has
`int_value()` at most 99 (hence between 0 and 99). -/
theorem version_single_digit :
    (∀ (m n rest : String) (k : Nat) (v : Option Version)
       (e : List (String × Bool)) (restLines : List String),
       m.data.all isDigit = true → n.data.all isDigit = true →
       2 ≤ m.length ∨ 2 ≤ n.length →
       parseLinesFrom k v e (("version " ++ m ++ "." ++ n ++ rest) :: restLines) =
         .error (.badLine k)) ∧
    (∀ (lines : List String) (v : Version) (e : List (String × Bool)),
       parse_profile lines = .ok (some v) e → v.int_value ≤ 99) := by
  constructor
  · intro m n rest k v e restLines hm hn hlen
    exact version_multidigit_badLine m n rest k v e restLines hm hn hlen
  · intro lines v e h
    exact parseLinesFrom_ok_bound lines 1 none [] e v (fun u hu => by cases hu) h

/-- C10 witness: `version 12.3 core` is a fatal bad line, and the version
parsed from `version 9.9` is bounded by 99. -/
theorem version_single_digit_witness :
    parse_profile ["version " ++ "12" ++ "." ++ "3" ++ " core"] = .error (.badLine 1) ∧
    (versionOfMatch '9' '9' "").int_value ≤ 99 := by
  constructor
  · exact version_single_digit.1 "12" "3" " core" 1 none [] []
      (by decide) (by decide) (Or.inl (by decide))
  · exact version_single_digit.2 ["version 9.9"] (versionOfMatch '9' '9' "") []
      (by decide)

/-! ## `generate_passthru` (C4) -/

theorem string_eq_empty_of_length {s : String} (h : s.length = 0) : s = "" := by
  cases s with
  | mk data =>
    cases data with
    | nil => rfl
    | cons a l => simp [String.length] at h

theorem append_ne_empty {s : String} (t : String) (h : s ≠ "") : s ++ t ≠ "" := by
  intro he
  apply h
  have hlen : s.length + t.length = ("" : String).length := by
    rw [← String.length_append, he]
  have hz : ("" : String).length = 0 := rfl
  rw [hz] at hlen
  exact string_eq_empty_of_length (by omega)

theorem joinNL_eq (ds : List String) : ∀ d, joinNL (d :: ds) = d ++ tailJoin ds := by
  induction ds with
  | nil =>
    intro d
    simp [joinNL, tailJoin]
  | cons e ds ih =>
    intro d
    show d ++ "\n" ++ joinNL (e :: ds) = d ++ tailJoin (e :: ds)
    rw [ih e]
    show d ++ "\n" ++ (e ++ tailJoin ds) = d ++ ("\n" ++ e ++ tailJoin ds)
    simp [String.append_assoc]

theorem goPassthru_acc (deps : Finset String) (l : List Ty) :
    ∀ acc, acc ≠ "" →
    goPassthru deps acc l =
      acc ++ tailJoin ((l.filter (fun t => nameInSet t deps)).map Ty.definition) := by
  induction l with
  | nil =>
    intro acc h
    simp [goPassthru, tailJoin]
  | cons t l ih =>
    intro acc h
    by_cases ht : nameInSet t deps
    · rw [List.filter_cons_of_pos (p := fun u => nameInSet u deps) ht]
      simp only [goPassthru, ht, if_true, List.map_cons, tailJoin]
      rw [if_pos h]
      rw [ih _ (append_ne_empty _ (append_ne_empty _ h))]
      simp [String.append_assoc]
    · rw [List.filter_cons_of_neg (p := fun u => nameInSet u deps) (by simpa using ht)]
      simp only [goPassthru, ht, if_false]
      exact ih acc h

/-- C4: corrected.  `generate_passthru` joins the definitions of the
required types, in original order, separated by a SINGLE newline (not a
blank line); the join is exact whenever the first included definition is
non-empty (an empty accumulated output suppresses its separator). -/
theorem generate_passthru_joins (dependencies : Finset String) (types : List Ty)
    (hhead : ∀ d,
      ((types.filter (fun t => nameInSet t dependencies)).map Ty.definition).head? = some d →
      d ≠ "") :
    generate_passthru dependencies types =
      joinNL ((types.filter (fun t => nameInSet t dependencies)).map Ty.definition) := by
  induction types with
  | nil => rfl
  | cons t l ih =>
    by_cases ht : nameInSet t dependencies
    · have hsel : ((t :: l).filter (fun u => nameInSet u dependencies)).map Ty.definition
          = t.definition :: ((l.filter (fun u => nameInSet u dependencies)).map Ty.definition) := by
        rw [List.filter_cons_of_pos (p := fun u => nameInSet u dependencies) ht, List.map_cons]
      have hd : t.definition ≠ "" := hhead t.definition (by rw [hsel]; rfl)
      unfold generate_passthru
      simp only [goPassthru, ht, if_true]
      rw [if_neg (by simp)]
      have hne : ("" : String) ++ t.definition ≠ "" := by
        intro he
        apply hd
        rwa [show ("" : String) ++ t.definition = t.definition from by simp] at he
      rw [goPassthru_acc dependencies l _ hne, hsel, joinNL_eq]
      simp
    · have hsel : (t :: l).filter (fun u => nameInSet u dependencies)
          = l.filter (fun u => nameInSet u dependencies) :=
        List.filter_cons_of_neg (p := fun u => nameInSet u dependencies) (by simpa using ht)
      unfold generate_passthru
      simp only [goPassthru, ht, if_false]
      rw [hsel] at hhead ⊢
      exact ih hhead

/-- C4 counterexample: two one-line definitions are joined by a single
newline, not by a blank line. -/
theorem generate_passthru_cex :
    generate_passthru {"A", "B"}
        [⟨none, some "A", "defA", none⟩, ⟨none, some "B", "defB", none⟩] = "defA\ndefB" ∧
    "defA\ndefB" ≠ "defA\n\ndefB" := by
  constructor
  · rfl
  · decide

/-- C4 witness: the join equation applied at a concrete input. -/
theorem generate_passthru_joins_witness :
    generate_passthru {"A", "B"}
        [⟨none, some "A", "dA", none⟩, ⟨none, some "B", "dB", none⟩, ⟨none, some "C", "dC", none⟩]
      = joinNL ((([⟨none, some "A", "dA", none⟩, ⟨none, some "B", "dB", none⟩,
          (⟨none, some "C", "dC", none⟩ : Ty)]).filter
            (fun t => nameInSet t {"A", "B"})).map Ty.definition) :=
  generate_passthru_joins {"A", "B"} _ (by decide)

/-! ## `resolve_type_dependencies` (C3) -/

theorem depPass_one_hop (types : List Ty) :
    ∀ (acc base : Finset String),
    List.Pairwise (fun t u => t.dependent ≠ u.name) types →
    (∀ u ∈ types, ∀ nm, u.name = some nm → (nm ∈ acc ↔ nm ∈ base)) →
    depPass acc types = acc ∪ oneHopDeps base types := by
  induction types with
  | nil =>
    intro acc base hp hinv
    simp [depPass, oneHopDeps]
  | cons t rest ih =>
    intro acc base hp hinv
    rw [List.pairwise_cons] at hp
    obtain ⟨hpt, hprest⟩ := hp
    show depPass (depStep acc t) rest = acc ∪ oneHopDeps base (t :: rest)
    rcases hn : t.name with - | nm
    · have hstep : depStep acc t = acc := by simp [depStep, hn]
      have hf : oneHopDeps base (t :: rest) = oneHopDeps base rest := by
        simp [oneHopDeps, List.filterMap_cons, hn]
      rw [hstep, hf]
      exact ih acc base hprest (fun u hu => hinv u (List.mem_cons_of_mem t hu))
    · rcases hd : t.dependent with - | d
      · have hstep : depStep acc t = acc := by simp [depStep, hn, hd]
        have hf : oneHopDeps base (t :: rest) = oneHopDeps base rest := by
          simp [oneHopDeps, List.filterMap_cons, hn, hd]
        rw [hstep, hf]
        exact ih acc base hprest (fun u hu => hinv u (List.mem_cons_of_mem t hu))
      · by_cases hc : nm ∈ acc ∧ d ≠ ""
        · have hnb : nm ∈ base := (hinv t (List.mem_cons_self t rest) nm hn).mp hc.1
          have hstep : depStep acc t = insert d acc := by
            simp [depStep, hn, hd, hc]
          have hf : oneHopDeps base (t :: rest) = insert d (oneHopDeps base rest) := by
            simp [oneHopDeps, List.filterMap_cons, hn, hd, hnb, hc.2]
          rw [hstep, hf]
          have hinv2 : ∀ u ∈ rest, ∀ nm', u.name = some nm' →
              (nm' ∈ insert d acc ↔ nm' ∈ base) := by
            intro u hu nm' hnm'
            have hne : nm' ≠ d := by
              intro he
              apply hpt u hu
              rw [hd, hnm', he]
            rw [Finset.mem_insert]
            constructor
            · rintro (rfl | hmem)
              · exact absurd rfl hne
              · exact (hinv u (List.mem_cons_of_mem t hu) nm' hnm').mp hmem
            · intro hb
              exact Or.inr ((hinv u (List.mem_cons_of_mem t hu) nm' hnm').mpr hb)
          rw [ih (insert d acc) base hprest hinv2]
          rw [Finset.insert_union, Finset.union_insert]
        · have hstep : depStep acc t = acc := by
            simp only [depStep, hn, hd]
            rw [if_neg hc]
          have hnotb : ¬(nm ∈ base ∧ d ≠ "") := by
            intro hb
            exact hc ⟨(hinv t (List.mem_cons_self t rest) nm hn).mpr hb.1, hb.2⟩
          have hf : oneHopDeps base (t :: rest) = oneHopDeps base rest := by
            simp only [oneHopDeps, List.filterMap_cons, hn, hd]
            rw [if_neg hnotb]
          rw [hstep, hf]
          exact ih acc base hprest (fun u hu => hinv u (List.mem_cons_of_mem t hu))

/-- C3: corrected.  Provided no type entry is declared after an entry that
names it as its dependent, `resolve_type_dependencies` returns exactly the
base union (subset type names plus each listed command's requiredTypes)
extended by one level of dependent expansion.  Without that ordering
hypothesis the single in-order pass follows dependent chains that are
aligned with declaration order further than one hop (see the
counterexample). -/
theorem resolve_type_dependencies_one_hop (subsets : List APISubset) (types : List Ty)
    (commands : List (String × Command)) (base : Finset String)
    (hb : baseRequiredTypes subsets commands = some base)
    (hord : List.Pairwise (fun t u => t.dependent ≠ u.name) types) :
    resolve_type_dependencies subsets types commands =
      some (base ∪ oneHopDeps base types) := by
  unfold resolve_type_dependencies
  rw [hb]
  show some (depPass base types) = _
  rw [depPass_one_hop types base base hord (fun u hu nm hnm => Iff.rfl)]

/-- C3 counterexample: with the chain `X requires Y` declared before
`Y requires Z`, resolving the subset `{X}` adds `Z` as well — the
dependent's own dependent IS added by the single mutating pass. -/
theorem resolve_type_dependencies_cex :
    "Z" ∈ (resolve_type_dependencies [⟨"S", ["X"], [], []⟩]
        [⟨none, some "X", "", some "Y"⟩, ⟨none, some "Y", "", some "Z"⟩] []).getD ∅ := by
  decide

/-- C3 witness: with `Y requires Z` declared before `X requires Y`, the
one-hop characterization applies and `Z` is not added. -/
theorem resolve_type_dependencies_one_hop_witness :
    resolve_type_dependencies [⟨"S", ["X"], [], []⟩]
        [⟨none, some "Y", "", some "Z"⟩, ⟨none, some "X", "", some "Y"⟩] [] =
      some ({"X"} ∪ oneHopDeps {"X"}
        [⟨none, some "Y", "", some "Z"⟩, ⟨none, some "X", "", some "Y"⟩]) :=
  resolve_type_dependencies_one_hop _ _ _ {"X"} (by decide) (by decide)

/-! ## `parse_xml_types` specialization resolution (C5) -/

theorem dictTruthy_cons (k v nm : Option String)
    (d : List (Option String × Option String)) :
    dictTruthy ((k, v) :: d) nm = if nm = k then !pyFalsy v else dictTruthy d nm := by
  by_cases hnm : nm = k
  · subst hnm
    simp [dictTruthy, List.lookup]
  · rw [if_neg hnm]
    have hbeq : (nm == k) = false := beq_eq_false_iff_ne.mpr hnm
    simp [dictTruthy, List.lookup, hbeq]

theorem dedupRevD_dict (M : List Ty) :
    ∀ (d : List (Option String × Option String)) (nm : Option String),
    dictTruthy (dedupRevD M d).2 nm =
      (dictTruthy d nm || M.any (fun u => u.name == nm && !pyFalsy u.api)) := by
  induction M with
  | nil =>
    intro d nm
    simp [dedupRevD]
  | cons t M ih =>
    intro d nm
    cases hl : d.lookup t.name with
    | some v =>
      by_cases hcond : pyFalsy t.api && !pyFalsy v
      · -- skipped: dict unchanged, and the entry's api is falsy
        have hskip : dedupRevD (t :: M) d = dedupRevD M d := by
          simp [dedupRevD, hl, hcond]
        rw [hskip, ih d nm]
        have hfal : pyFalsy t.api = true := by
          rw [Bool.and_eq_true] at hcond
          exact hcond.1
        simp [List.any_cons, hfal]
      · rcases hrec : dedupRevD M ((t.name, t.api) :: d) with ⟨ks, d2⟩
        have hkeep : (dedupRevD (t :: M) d).2 = d2 := by
          simp [dedupRevD, hl, hcond, hrec]
        rw [hkeep]
        have hih := ih ((t.name, t.api) :: d) nm
        rw [hrec] at hih
        rw [hih, dictTruthy_cons]
        by_cases hnm : nm = t.name
        · subst hnm
          rw [if_pos rfl]
          have hd0 : dictTruthy d t.name = !pyFalsy v := by
            simp [dictTruthy, hl]
          rw [hd0]
          simp only [List.any_cons, beq_self_eq_true, Bool.true_and]
          cases hapi : pyFalsy t.api <;> cases hpv : pyFalsy v <;> simp_all
        · rw [if_neg hnm]
          have hbeq2 : (t.name == nm) = false := beq_eq_false_iff_ne.mpr (Ne.symm hnm)
          simp [List.any_cons, hbeq2]
    | none =>
      rcases hrec : dedupRevD M ((t.name, t.api) :: d) with ⟨ks, d2⟩
      have hkeep : (dedupRevD (t :: M) d).2 = d2 := by
        simp [dedupRevD, hl, hrec]
      rw [hkeep]
      have hih := ih ((t.name, t.api) :: d) nm
      rw [hrec] at hih
      rw [hih, dictTruthy_cons]
      by_cases hnm : nm = t.name
      · subst hnm
        rw [if_pos rfl]
        have hd0 : dictTruthy d t.name = false := by
          simp [dictTruthy, hl]
        rw [hd0]
        simp [List.any_cons]
      · rw [if_neg hnm]
        have hbeq2 : (t.name == nm) = false := beq_eq_false_iff_ne.mpr (Ne.symm hnm)
        simp [List.any_cons, hbeq2]

theorem dedupRevD_append (A : List Ty) :
    ∀ (B : List Ty) (d : List (Option String × Option String)),
    dedupRevD (A ++ B) d =
      ((dedupRevD A d).1 ++ (dedupRevD B (dedupRevD A d).2).1,
       (dedupRevD B (dedupRevD A d).2).2) := by
  induction A with
  | nil =>
    intro B d
    simp [dedupRevD]
  | cons t A ih =>
    intro B d
    cases hl : d.lookup t.name with
    | some v =>
      by_cases hcond : pyFalsy t.api && !pyFalsy v
      · simp [dedupRevD, hl, hcond, List.cons_append, ih]
      · rcases hrec : dedupRevD A ((t.name, t.api) :: d) with ⟨ks, d2⟩
        have h2 := ih B ((t.name, t.api) :: d)
        rw [hrec] at h2
        simp [dedupRevD, hl, hcond, List.cons_append, h2, hrec]
    | none =>
      rcases hrec : dedupRevD A ((t.name, t.api) :: d) with ⟨ks, d2⟩
      have h2 := ih B ((t.name, t.api) :: d)
      rw [hrec] at h2
      simp [dedupRevD, hl, List.cons_append, h2, hrec]

theorem dedupRevD_singleton (t : Ty) (d : List (Option String × Option String)) :
    (dedupRevD [t] d).1 =
      if pyFalsy t.api && dictTruthy d t.name then [] else [t] := by
  cases hl : d.lookup t.name with
  | some v =>
    have hd : dictTruthy d t.name = !pyFalsy v := by
      simp [dictTruthy, hl]
    by_cases hcond : pyFalsy t.api && !pyFalsy v
    · rw [if_pos (by rw [hd]; exact hcond)]
      simp [dedupRevD, hl, hcond]
    · rw [if_neg (by rw [hd]; exact hcond)]
      simp [dedupRevD, hl, hcond]
  | none =>
    have hd : dictTruthy d t.name = false := by
      simp [dictTruthy, hl]
    rw [hd]
    simp [dedupRevD, hl]

theorem dedupRevD_reverse_eq_keptWithD (L : List Ty) :
    ∀ (d : List (Option String × Option String)),
    ((dedupRevD L.reverse d).1).reverse = keptWithD d L := by
  induction L with
  | nil =>
    intro d
    simp [dedupRevD, keptWithD]
  | cons t rest ih =>
    intro d
    rw [List.reverse_cons, dedupRevD_append]
    rw [List.reverse_append]
    rw [ih d]
    rw [dedupRevD_singleton]
    rw [dedupRevD_dict]
    rw [List.any_reverse]
    show (if pyFalsy t.api && (dictTruthy d t.name ||
        rest.any (fun u => u.name == t.name && !pyFalsy u.api)) then ([] : List Ty)
      else [t]).reverse ++ keptWithD d rest = keptWithD d (t :: rest)
    by_cases hc : pyFalsy t.api &&
        (dictTruthy d t.name || rest.any (fun u => u.name == t.name && !pyFalsy u.api))
    · rw [if_pos hc]
      show keptWithD d rest = keptWithD d (t :: rest)
      conv_rhs => unfold keptWithD
      rw [if_pos hc]
    · rw [if_neg hc]
      show t :: keptWithD d rest = keptWithD d (t :: rest)
      conv_rhs => unfold keptWithD
      rw [if_neg hc]

theorem keptWithD_nil_eq_keptTypes (L : List Ty) : keptWithD [] L = keptTypes L := by
  induction L with
  | nil => rfl
  | cons t rest ih =>
    unfold keptWithD keptTypes
    have hd : dictTruthy [] t.name = false := rfl
    rw [hd, ih]
    simp

theorem dedupTypes_eq_keptTypes (L : List Ty) : dedupTypes L = keptTypes L := by
  unfold dedupTypes
  rw [dedupRevD_reverse_eq_keptWithD, keptWithD_nil_eq_keptTypes]

theorem keptTypes_sublist (L : List Ty) : (keptTypes L).Sublist L := by
  induction L with
  | nil => simp [keptTypes]
  | cons t rest ih =>
    unfold keptTypes
    split
    · exact ih.cons t
    · exact ih.cons₂ t

theorem keptTypes_filter_name (T : Option String) (L : List Ty) :
    (keptTypes L).filter (fun u => u.name == T) =
      keptTypes (L.filter (fun u => u.name == T)) := by
  induction L with
  | nil => rfl
  | cons t rest ih =>
    by_cases hT : t.name = T
    · have hbeq : (t.name == T) = true := by
        rw [hT]
        exact beq_self_eq_true T
      rw [List.filter_cons_of_pos (p := fun (u : Ty) => u.name == T) hbeq]
      have hany : rest.any (fun u => u.name == t.name && !pyFalsy u.api) =
          (rest.filter (fun u => u.name == T)).any
            (fun u => u.name == t.name && !pyFalsy u.api) := by
        rw [List.any_filter]
        congr 1
        funext x
        subst hT
        cases hx : x.name == t.name <;> simp [hx]
      by_cases hdrop : pyFalsy t.api && rest.any (fun u => u.name == t.name && !pyFalsy u.api)
      · have h1 : keptTypes (t :: rest) = keptTypes rest := by
          conv_lhs => unfold keptTypes
          rw [if_pos hdrop]
        have h2 : keptTypes (t :: rest.filter (fun u => u.name == T)) =
            keptTypes (rest.filter (fun u => u.name == T)) := by
          conv_lhs => unfold keptTypes
          rw [if_pos (by rw [← hany]; exact hdrop)]
        rw [h1, h2, ih]
      · have h1 : keptTypes (t :: rest) = t :: keptTypes rest := by
          conv_lhs => unfold keptTypes
          rw [if_neg hdrop]
        have h2 : keptTypes (t :: rest.filter (fun u => u.name == T)) =
            t :: keptTypes (rest.filter (fun u => u.name == T)) := by
          conv_lhs => unfold keptTypes
          rw [if_neg (by rw [← hany]; exact hdrop)]
        rw [h1, h2, List.filter_cons_of_pos (p := fun (u : Ty) => u.name == T) hbeq, ih]
    · have hbeq : (t.name == T) = false := beq_eq_false_iff_ne.mpr hT
      rw [List.filter_cons_of_neg (p := fun (u : Ty) => u.name == T) (by simp [hbeq])]
      by_cases hdrop : pyFalsy t.api && rest.any (fun u => u.name == t.name && !pyFalsy u.api)
      · have h1 : keptTypes (t :: rest) = keptTypes rest := by
          conv_lhs => unfold keptTypes
          rw [if_pos hdrop]
        rw [h1, ih]
      · have h1 : keptTypes (t :: rest) = t :: keptTypes rest := by
          conv_lhs => unfold keptTypes
          rw [if_neg hdrop]
        rw [h1, List.filter_cons_of_neg (p := fun (u : Ty) => u.name == T) (by simp [hbeq]), ih]

/-- C5: corrected.  When the declarations named `T` that survive the api
filter are exactly one api-agnostic entry followed by one api-specific
entry, the resolved type list keeps exactly the api-specific one (with its
definition), and the whole resolved list is a sublist of the filtered
declarations, i.e. original order is preserved.  When several api-specific
declarations named `T` survive, all of them are kept (see the
counterexample), so the claim's unqualified "exactly one entry" fails. -/
theorem parse_xml_types_specialization (root : XmlNode) (api T : String)
    (raw ts : List Ty) (t0 t1 : Ty)
    (hraw : rawTypes root api = some raw)
    (hts : parse_xml_types root api = some ts)
    (hfil : raw.filter (fun u => u.name == some T) = [t0, t1])
    (h0 : pyFalsy t0.api = true) (h1 : pyFalsy t1.api = false) :
    ts.filter (fun u => u.name == some T) = [t1] ∧ ts.Sublist raw := by
  have hts2 : ts = keptTypes raw := by
    unfold parse_xml_types at hts
    rw [hraw] at hts
    have : some (dedupTypes raw) = some ts := hts
    have h2 : dedupTypes raw = ts := Option.some.inj this
    rw [← h2, dedupTypes_eq_keptTypes]
  have hnames : t0.name = some T ∧ t1.name = some T := by
    have h0m : t0 ∈ raw.filter (fun u => u.name == some T) := by
      rw [hfil]
      exact List.mem_cons_self _ _
    have h1m : t1 ∈ raw.filter (fun u => u.name == some T) := by
      rw [hfil]
      exact List.mem_cons_of_mem _ (List.mem_cons_self _ _)
    have e0 := (List.mem_filter.mp h0m).2
    have e1 := (List.mem_filter.mp h1m).2
    exact ⟨eq_of_beq e0, eq_of_beq e1⟩
  constructor
  · rw [hts2, keptTypes_filter_name, hfil]
    have hsame : (t1.name == t0.name) = true := by
      rw [hnames.1, hnames.2]
      exact beq_self_eq_true (some T)
    have hd : keptTypes [t0, t1] = keptTypes [t1] := by
      conv_lhs => unfold keptTypes
      rw [if_pos]
      rw [h0]
      simp [List.any_cons, hsame, h1]
    rw [hd]
    unfold keptTypes
    rw [if_neg (by simp)]
    rfl
  · rw [hts2]
    exact keptTypes_sublist raw

/-- C5 counterexample: with an api-agnostic `T` declared before TWO
api-specific `T` declarations, the resolved list keeps both specific
entries — two entries named `T` remain. -/
theorem parse_xml_types_cex :
    rawTypes (typesRoot [tyNode "T" none, tyNode "T" (some "gl"), tyNode "T" (some "gl")]) "gl"
      = some [⟨none, some "T", "", none⟩, ⟨some "gl", some "T", "", none⟩,
              ⟨some "gl", some "T", "", none⟩] ∧
    ((parse_xml_types
        (typesRoot [tyNode "T" none, tyNode "T" (some "gl"), tyNode "T" (some "gl")])
        "gl").getD []).countP (fun u => u.name == some "T") = 2 := by
  constructor
  · decide
  · decide

/-- C5 witness: the two-declaration scenario applied concretely. -/
theorem parse_xml_types_specialization_witness :
    ([(⟨some "gl", some "T", "", none⟩ : Ty)].filter (fun u => u.name == some "T")
        = [⟨some "gl", some "T", "", none⟩]) ∧
    ([(⟨some "gl", some "T", "", none⟩ : Ty)]).Sublist
      [⟨none, some "T", "", none⟩, ⟨some "gl", some "T", "", none⟩] :=
  parse_xml_types_specialization
    (typesRoot [tyNode "T" none, tyNode "T" (some "gl")]) "gl" "T"
    [⟨none, some "T", "", none⟩, ⟨some "gl", some "T", "", none⟩]
    [⟨some "gl", some "T", "", none⟩]
    ⟨none, some "T", "", none⟩ ⟨some "gl", some "T", "", none⟩
    (by decide) (by decide) (by decide) (by decide) (by decide)

/-! ## `parse_xml_features` (C1, C2) -/

theorem contains_append (l1 l2 : List String) (x : String) :
    (l1 ++ l2).contains x = (l1.contains x || l2.contains x) := by
  induction l1 with
  | nil => simp
  | cons a l ih => simp [List.contains_cons, ih, Bool.or_assoc]

theorem filter_not_contains_nil (l : List String) :
    l.filter (fun e => !([] : List String).contains e) = l := by
  have h : ∀ e ∈ l, (!([] : List String).contains e) = (fun _ => true) e := by
    intro e he
    rfl
  rw [List.filter_congr h, List.filter_true]

theorem filter_not_contains_append (l names rel : List String) :
    l.filter (fun e => !(names ++ rel).contains e) =
      (l.filter (fun e => !names.contains e)).filter (fun e => !rel.contains e) := by
  rw [List.filter_filter]
  apply List.filter_congr
  intro e he
  rw [contains_append]
  cases c1 : names.contains e <;> cases c2 : rel.contains e <;> rfl

theorem requireNames_cons (api profile sel : String) (a : XmlNode) (rest : List XmlNode) :
    requireNames api profile sel (a :: rest) =
      (if !skipActionSet api profile a && a.tag == "require"
       then extract_names a [sel] else []) ++ requireNames api profile sel rest := by
  unfold requireNames
  by_cases h : !skipActionSet api profile a && a.tag == "require"
  · rw [List.filter_cons_of_pos (p := fun b => !skipActionSet api profile b && b.tag == "require") h,
        List.flatMap_cons, if_pos h]
  · rw [List.filter_cons_of_neg (p := fun b => !skipActionSet api profile b && b.tag == "require")
        (by simpa using h), if_neg h]
    simp

theorem removeNames_cons (api profile sel : String) (a : XmlNode) (rest : List XmlNode) :
    removeNames api profile sel (a :: rest) =
      (if !skipActionSet api profile a && a.tag == "remove"
       then extract_names a [sel] else []) ++ removeNames api profile sel rest := by
  unfold removeNames
  by_cases h : !skipActionSet api profile a && a.tag == "remove"
  · rw [List.filter_cons_of_pos (p := fun b => !skipActionSet api profile b && b.tag == "remove") h,
        List.flatMap_cons, if_pos h]
  · rw [List.filter_cons_of_neg (p := fun b => !skipActionSet api profile b && b.tag == "remove")
        (by simpa using h), if_neg h]
    simp

theorem stripByRemoves_nil (api profile : String) (s : APISubset) :
    stripByRemoves api profile [] s = s := by
  unfold stripByRemoves removeNames
  cases s with
  | mk nm ts es cs =>
    simp only [List.filter_nil, List.flatMap_nil, filter_not_contains_nil]

theorem stripByRemoves_cons_skip (api profile : String) (a : XmlNode)
    (rest : List XmlNode) (s : APISubset)
    (h : ¬(!skipActionSet api profile a && a.tag == "remove") = true) :
    stripByRemoves api profile (a :: rest) s = stripByRemoves api profile rest s := by
  unfold stripByRemoves
  rw [removeNames_cons, removeNames_cons, removeNames_cons]
  rw [if_neg h, if_neg h, if_neg h]
  simp

theorem stripByRemoves_cons_remove (api profile : String) (a : XmlNode)
    (rest : List XmlNode) (s : APISubset)
    (h : (!skipActionSet api profile a && a.tag == "remove") = true) :
    stripByRemoves api profile (a :: rest) s =
      stripByRemoves api profile rest (removeFromSubset a s) := by
  unfold stripByRemoves removeFromSubset
  rw [removeNames_cons, removeNames_cons, removeNames_cons]
  rw [if_pos h, if_pos h, if_pos h]
  simp only [filter_not_contains_append]

/-- The inner loop over a feature's sections: removes apply to every
already-built subset, requires accumulate onto the current lists. -/
theorem processActionSets_spec (api profile : String) (asets : List XmlNode) :
    ∀ (subsets : List APISubset) (tl el cl : List String),
    processActionSets api profile asets subsets tl el cl =
      (subsets.map (stripByRemoves api profile asets),
       tl ++ requireNames api profile "type" asets,
       el ++ requireNames api profile "enum" asets,
       cl ++ requireNames api profile "command" asets) := by
  induction asets with
  | nil =>
    intro subsets tl el cl
    unfold processActionSets
    have h1 : subsets.map (stripByRemoves api profile []) = subsets := by
      rw [List.map_eq_map_iff.mpr (fun s _ => stripByRemoves_nil api profile s)]
      exact List.map_id subsets
    rw [h1]
    simp [requireNames]
  | cons a rest ih =>
    intro subsets tl el cl
    by_cases hskip : skipActionSet api profile a
    · have hreq : ∀ sel, requireNames api profile sel (a :: rest)
          = requireNames api profile sel rest := by
        intro sel
        rw [requireNames_cons, if_neg (by simp [hskip])]
        rfl
      have hmap : subsets.map (stripByRemoves api profile (a :: rest))
          = subsets.map (stripByRemoves api profile rest) :=
        List.map_eq_map_iff.mpr (fun s _ =>
          stripByRemoves_cons_skip api profile a rest s (by simp [hskip]))
      unfold processActionSets
      rw [if_pos hskip, ih, hreq, hreq, hreq, hmap]
    · have hskip' : skipActionSet api profile a = false := by
        simpa using hskip
      unfold processActionSets
      rw [if_neg hskip, ih]
      by_cases htagR : a.tag == "require"
      · have htagM : (a.tag == "remove") = false := by
          rw [eq_of_beq htagR]
          rfl
        have hreq : ∀ sel, requireNames api profile sel (a :: rest)
            = extract_names a [sel] ++ requireNames api profile sel rest := by
          intro sel
          rw [requireNames_cons, if_pos (by simp [hskip', htagR])]
        have hmap : subsets.map (stripByRemoves api profile (a :: rest))
            = subsets.map (stripByRemoves api profile rest) :=
          List.map_eq_map_iff.mpr (fun s _ =>
            stripByRemoves_cons_skip api profile a rest s (by simp [htagM]))
        rw [if_pos htagR, if_pos htagR, if_pos htagR, if_neg (by simp [htagM])]
        rw [hreq, hreq, hreq, hmap]
        simp [List.append_assoc]
      · by_cases htagM : a.tag == "remove"
        · have hreq : ∀ sel, requireNames api profile sel (a :: rest)
              = requireNames api profile sel rest := by
            intro sel
            rw [requireNames_cons, if_neg (by simp [htagR])]
            rfl
          have hmap : (subsets.map (removeFromSubset a)).map (stripByRemoves api profile rest)
              = subsets.map (stripByRemoves api profile (a :: rest)) := by
            rw [List.map_map]
            apply List.map_eq_map_iff.mpr
            intro s hs
            show stripByRemoves api profile rest (removeFromSubset a s)
              = stripByRemoves api profile (a :: rest) s
            exact (stripByRemoves_cons_remove api profile a rest s
              (by simp [hskip', htagM])).symm
          rw [if_pos htagM, if_neg (by simp [htagR]), if_neg (by simp [htagR]),
              if_neg (by simp [htagR])]
          rw [hreq, hreq, hreq, hmap]
        · have hreq : ∀ sel, requireNames api profile sel (a :: rest)
              = requireNames api profile sel rest := by
            intro sel
            rw [requireNames_cons, if_neg (by simp [htagR])]
            rfl
          have hmap : subsets.map (stripByRemoves api profile (a :: rest))
              = subsets.map (stripByRemoves api profile rest) :=
            List.map_eq_map_iff.mpr (fun s _ =>
              stripByRemoves_cons_skip api profile a rest s (by simp [htagM]))
          rw [if_neg (by simp [htagM]), if_neg (by simp [htagR]), if_neg (by simp [htagR]),
              if_neg (by simp [htagR])]
          rw [hreq, hreq, hreq, hmap]

theorem laterRemoveNames_cons (api profile sel : String) (v : Nat) (f : XmlNode)
    (fs : List XmlNode) :
    laterRemoveNames api profile sel v (f :: fs) =
      (if versionOK v f then removeNames api profile sel f.children else []) ++
        laterRemoveNames api profile sel v fs := by
  unfold laterRemoveNames
  by_cases h : versionOK v f
  · rw [List.filter_cons_of_pos (p := versionOK v) h, List.flatMap_cons, if_pos h]
  · rw [List.filter_cons_of_neg (p := versionOK v) (by simpa using h), if_neg h]
    simp

theorem stripSubset_nil (api profile : String) (v : Nat) (s : APISubset) :
    stripSubset api profile v [] s = s := by
  unfold stripSubset laterRemoveNames
  cases s with
  | mk nm ts es cs =>
    simp only [List.filter_nil, List.flatMap_nil, filter_not_contains_nil]

theorem stripSubset_cons_skip (api profile : String) (v : Nat) (f : XmlNode)
    (fs : List XmlNode) (s : APISubset) (h : versionOK v f = false) :
    stripSubset api profile v (f :: fs) s = stripSubset api profile v fs s := by
  unfold stripSubset
  rw [laterRemoveNames_cons, laterRemoveNames_cons, laterRemoveNames_cons]
  rw [if_neg (by simp [h]), if_neg (by simp [h]), if_neg (by simp [h])]
  simp

theorem stripSubset_cons_ok (api profile : String) (v : Nat) (f : XmlNode)
    (fs : List XmlNode) (s : APISubset) (h : versionOK v f = true) :
    stripSubset api profile v (f :: fs) s =
      stripSubset api profile v fs (stripByRemoves api profile f.children s) := by
  unfold stripSubset stripByRemoves
  rw [laterRemoveNames_cons, laterRemoveNames_cons, laterRemoveNames_cons]
  rw [if_pos (by simp [h]), if_pos (by simp [h]), if_pos (by simp [h])]
  simp only [filter_not_contains_append]

/-- The outer loop of `parse_xml_features` equals the compositional
description: already-accumulated subsets get stripped by every remove of
the remaining version-passing features, and the features of `fs` are
appended as `featuresSpec` describes. -/
theorem processFeatures_spec (api profile : String) (iv : Nat) (fs : List XmlNode) :
    ∀ subsets : List APISubset,
    processFeatures api profile iv fs subsets =
      (featuresSpec api profile iv fs).map
        (fun tail => subsets.map (stripSubset api profile iv fs) ++ tail) := by
  induction fs with
  | nil =>
    intro subsets
    have h1 : subsets.map (stripSubset api profile iv []) = subsets := by
      rw [List.map_eq_map_iff.mpr (fun s _ => stripSubset_nil api profile iv s)]
      exact List.map_id subsets
    simp [processFeatures, featuresSpec, h1]
  | cons f rest ih =>
    intro subsets
    cases hpv : parse_int_version ((getAttr f "number").getD "") with
    | none =>
      simp [processFeatures, featuresSpec, hpv]
    | some n =>
      by_cases hlt : iv < n
      · have hvok : versionOK iv f = false := by
          unfold versionOK
          rw [hpv]
          simp only [decide_eq_false_iff_not]
          omega
        have hL : processFeatures api profile iv (f :: rest) subsets
            = processFeatures api profile iv rest subsets := by
          conv_lhs => unfold processFeatures
          rw [hpv]
          simp [hlt]
        have hspec : featuresSpec api profile iv (f :: rest)
            = featuresSpec api profile iv rest := by
          conv_lhs => unfold featuresSpec
          rw [hpv]
          simp [hlt]
        rw [hL, ih subsets, hspec]
        have hfun : (fun tail : List APISubset =>
              subsets.map (stripSubset api profile iv rest) ++ tail)
            = (fun tail : List APISubset =>
              subsets.map (stripSubset api profile iv (f :: rest)) ++ tail) := by
          funext tail
          rw [List.map_eq_map_iff.mpr
            (fun s _ => (stripSubset_cons_skip api profile iv f rest s hvok).symm)]
        rw [hfun]
      · have hvok : versionOK iv f = true := by
          unfold versionOK
          rw [hpv]
          simp only [decide_eq_true_eq]
          omega
        have hL : processFeatures api profile iv (f :: rest) subsets
            = processFeatures api profile iv rest
                (subsets.map (stripByRemoves api profile f.children) ++
                 [⟨((getAttr f "name").getD "").drop 3,
                   requireNames api profile "type" f.children,
                   requireNames api profile "enum" f.children,
                   requireNames api profile "command" f.children⟩]) := by
          conv_lhs => unfold processFeatures
          rw [hpv, processActionSets_spec]
          simp [hlt]
        rw [hL, ih]
        cases hspec : featuresSpec api profile iv rest with
        | none =>
          have hS : featuresSpec api profile iv (f :: rest) = none := by
            conv_lhs => unfold featuresSpec
            rw [hpv]
            simp [hlt, hspec]
          rw [hS]
          rfl
        | some tail =>
          have hS : featuresSpec api profile iv (f :: rest)
              = some (stripSubset api profile iv rest
                  ⟨((getAttr f "name").getD "").drop 3,
                   requireNames api profile "type" f.children,
                   requireNames api profile "enum" f.children,
                   requireNames api profile "command" f.children⟩ :: tail) := by
            conv_lhs => unfold featuresSpec
            rw [hpv]
            simp [hlt, hspec]
          rw [hS]
          simp only [Option.map_some']
          congr 1
          rw [List.map_append, List.map_map]
          have hcomp : subsets.map
                (stripSubset api profile iv rest ∘ stripByRemoves api profile f.children)
              = subsets.map (stripSubset api profile iv (f :: rest)) := by
            apply List.map_eq_map_iff.mpr
            intro s hs
            show stripSubset api profile iv rest (stripByRemoves api profile f.children s)
              = stripSubset api profile iv (f :: rest) s
            exact (stripSubset_cons_ok api profile iv f rest s hvok).symm
          rw [hcomp]
          simp

/-- C2: confirmed.  `parse_xml_features` equals the compositional
description in which every emitted subset consists of its own feature's
`require` names filtered by the `remove` names of ALL later version-passing
features — i.e. each matching `remove` section strips every subset
accumulated before it, retroactively.  Order matters: swapping two
`require` sections inside one feature, or two features, changes the
result. -/
theorem parse_xml_features_retroactive_removes :
    (∀ (root : XmlNode) (iv : Nat) (api profile : String),
      parse_xml_features root iv api profile =
        featuresSpec api profile iv (selectedFeatures api root)) ∧
    parse_xml_features (rootNode [featureNode "GL_A" "1.0"
        [requireNode [typeRef "A"], requireNode [typeRef "B"]]]) 10 "gl" "" ≠
      parse_xml_features (rootNode [featureNode "GL_A" "1.0"
        [requireNode [typeRef "B"], requireNode [typeRef "A"]]]) 10 "gl" "" ∧
    parse_xml_features (rootNode [
        featureNode "GL_V10" "1.0" [requireNode [typeRef "X"]],
        featureNode "GL_V11" "1.1" [removeNode [typeRef "X"]]]) 11 "gl" "" ≠
      parse_xml_features (rootNode [
        featureNode "GL_V11" "1.1" [removeNode [typeRef "X"]],
        featureNode "GL_V10" "1.0" [requireNode [typeRef "X"]]]) 11 "gl" "" := by
  refine ⟨?_, by decide, by decide⟩
  intro root iv api profile
  unfold parse_xml_features
  rw [processFeatures_spec]
  cases featuresSpec api profile iv (selectedFeatures api root) <;> simp

/-- C1: corrected.  A `remove` section strips only the subsets of earlier
features: with `require {A,B,C}` followed by `remove {B}` in the SAME
feature block, that feature's subset keeps `[A, B, C]`; only when the
`remove {B}` sits in a later feature block does the earlier feature's
subset become `[A, C]` (order of `A`, `C` preserved). -/
theorem feature_own_remove (n1 n2 A B C : String) (hAB : A ≠ B) (hCB : C ≠ B) :
    parse_xml_features (rootNode [featureNode n1 "1.0"
        [requireNode [typeRef A, typeRef B, typeRef C], removeNode [typeRef B]]]) 10 "gl" ""
      = some [⟨n1.drop 3, [A, B, C], [], []⟩] ∧
    parse_xml_features (rootNode [
        featureNode n1 "1.0" [requireNode [typeRef A, typeRef B, typeRef C]],
        featureNode n2 "1.1" [removeNode [typeRef B]]]) 11 "gl" ""
      = some [⟨n1.drop 3, [A, C], [], []⟩, ⟨n2.drop 3, [], [], []⟩] := by
  have hA2 : (A == B) = false := beq_eq_false_iff_ne.mpr hAB
  have hC2 : (C == B) = false := beq_eq_false_iff_ne.mpr hCB
  have h10 : parse_int_version "1.0" = some 10 := by decide
  have h11 : parse_int_version "1.1" = some 11 := by decide
  constructor <;>
    simp [parse_xml_features, processFeatures, processActionSets, selectedFeatures,
          featureSelected, featureNode, rootNode, requireNode, removeNode, typeRef,
          getAttr, XmlNode.children, XmlNode.tag, XmlNode.attrib, skipActionSet,
          extract_names, findPath, findTagged, removeFromSubset,
          List.lookup, List.contains, List.elem, h10, h11, hA2, hC2]

/-- C1 counterexample: `require {A,B,C}` followed by `remove {B}` in the
same feature block yields the subset `[A, B, C]`, not `[A, C]`. -/
theorem feature_own_remove_cex :
    parse_xml_features (rootNode [featureNode "GL_VERSION_1_0" "1.0"
        [requireNode [typeRef "A", typeRef "B", typeRef "C"],
         removeNode [typeRef "B"]]]) 10 "gl" ""
      = some [⟨"VERSION_1_0", ["A", "B", "C"], [], []⟩] := by
  decide

/-- C1 witness: the amended claim applied at concrete names. -/
theorem feature_own_remove_witness :
    parse_xml_features (rootNode [featureNode "GL_X1" "1.0"
        [requireNode [typeRef "A", typeRef "B", typeRef "C"],
         removeNode [typeRef "B"]]]) 10 "gl" ""
      = some [⟨"GL_X1".drop 3, ["A", "B", "C"], [], []⟩] ∧
    parse_xml_features (rootNode [
        featureNode "GL_X1" "1.0" [requireNode [typeRef "A", typeRef "B", typeRef "C"]],
        featureNode "GL_X2" "1.1" [removeNode [typeRef "B"]]]) 11 "gl" ""
      = some [⟨"GL_X1".drop 3, ["A", "C"], [], []⟩, ⟨"GL_X2".drop 3, [], [], []⟩] :=
  feature_own_remove "GL_X1" "GL_X2" "A" "B" "C" (by decide) (by decide)

/-! ## `generate_functions` (C6) -/

theorem contains_eq_decide_mem (l : List String) (a : String) :
    l.contains a = decide (a ∈ l) :=
  List.elem_eq_mem a l

theorem emitGroup_not_mem (cmds : List String) :
    ∀ (prior : List String) (n : String), n ∈ prior → n ∉ emitGroup prior cmds := by
  induction cmds with
  | nil =>
    intro prior n hn
    simp [emitGroup]
  | cons c rest ih =>
    intro prior n hn
    unfold emitGroup
    by_cases hc : prior.contains c
    · rw [if_pos hc]
      exact ih prior n hn
    · rw [if_neg hc]
      intro hmem
      rcases List.mem_cons.mp hmem with rfl | hmem2
      · apply hc
        rw [contains_eq_decide_mem]
        exact decide_eq_true hn
      · exact ih (prior ++ [c]) n (by simp [hn]) hmem2

theorem emitFunctions_spec (commands : List (String × Command)) (cmds : List String) :
    ∀ (seen : Finset String) (prior : List String),
    (∀ n, n ∈ seen ↔ n ∈ prior) →
    ∃ seen2 : Finset String,
      emitFunctions commands seen cmds =
        ((emitGroup prior cmds).mapM (fun n => (commands.lookup n).map
          (fun c => (⟨c.name.drop 2, c.params, c.returntype⟩ : Func)))).map
          (fun fs => (fs, seen2)) ∧
      (∀ n, n ∈ seen2 ↔ n ∈ prior ++ cmds) := by
  induction cmds with
  | nil =>
    intro seen prior hinv
    refine ⟨seen, ?_, ?_⟩
    · show some ([], seen) =
        (([] : List String).mapM (fun n => (commands.lookup n).map
          (fun c => (⟨c.name.drop 2, c.params, c.returntype⟩ : Func)))).map
          (fun fs => (fs, seen))
      rw [List.mapM_nil]
      rfl
    · intro n
      rw [hinv n]
      simp
  | cons c rest ih =>
    intro seen prior hinv
    by_cases hc : c ∈ seen
    · have hcp : c ∈ prior := (hinv c).mp hc
      have hgr : emitGroup prior (c :: rest) = emitGroup prior rest := by
        conv_lhs => unfold emitGroup
        rw [if_pos (by rw [contains_eq_decide_mem]; exact decide_eq_true hcp)]
      obtain ⟨seen2, heq, hinv2⟩ := ih seen prior hinv
      refine ⟨seen2, ?_, ?_⟩
      · unfold emitFunctions
        rw [if_pos hc, hgr, heq]
      · intro n
        rw [hinv2 n]
        simp only [List.mem_append, List.mem_cons]
        constructor
        · rintro (h1 | h2)
          · exact Or.inl h1
          · exact Or.inr (Or.inr h2)
        · rintro (h1 | rfl | h2)
          · exact Or.inl h1
          · exact Or.inl hcp
          · exact Or.inr h2
    · have hcp : c ∉ prior := fun h => hc ((hinv c).mpr h)
      have hgr : emitGroup prior (c :: rest) = c :: emitGroup (prior ++ [c]) rest := by
        conv_lhs => unfold emitGroup
        rw [if_neg (by rw [contains_eq_decide_mem]; simp [hcp])]
      cases hlook : commands.lookup c with
      | none =>
        refine ⟨(prior ++ c :: rest).toFinset, ?_, ?_⟩
        · unfold emitFunctions
          rw [if_neg hc, hlook, hgr, List.mapM_cons]
          simp [hlook]
        · intro n
          simp only [List.mem_toFinset, List.mem_append, List.mem_cons]
      | some cmd =>
        have hinv2 : ∀ n, n ∈ insert c seen ↔ n ∈ prior ++ [c] := by
          intro n
          rw [Finset.mem_insert, hinv n]
          simp only [List.mem_append, List.mem_singleton]
          tauto
        obtain ⟨seen2, heq, hinv3⟩ := ih (insert c seen) (prior ++ [c]) hinv2
        refine ⟨seen2, ?_, ?_⟩
        · unfold emitFunctions
          rw [if_neg hc, hlook, hgr, heq, List.mapM_cons]
          simp only [hlook, Option.map_some', Option.bind_eq_bind, Option.some_bind]
          cases (emitGroup (prior ++ [c]) rest).mapM (fun n =>
              (commands.lookup n).map
                (fun c => (⟨c.name.drop 2, c.params, c.returntype⟩ : Func))) <;> rfl
        · intro n
          rw [hinv3 n]
          simp only [List.mem_append, List.mem_cons, List.mem_singleton]
          tauto

theorem goFunctions_spec (commands : List (String × Command)) (subsets : List APISubset) :
    ∀ (seen : Finset String) (prior : List String),
    (∀ n, n ∈ seen ↔ n ∈ prior) →
    goFunctions commands seen subsets = specFunGroups commands prior subsets := by
  induction subsets with
  | nil =>
    intro seen prior hinv
    rfl
  | cons s rest ih =>
    intro seen prior hinv
    obtain ⟨seen2, heq, hinv2⟩ := emitFunctions_spec commands s.commands seen prior hinv
    unfold goFunctions specFunGroups
    rw [heq]
    cases hm : (emitGroup prior s.commands).mapM (fun n =>
        (commands.lookup n).map
          (fun c => (⟨c.name.drop 2, c.params, c.returntype⟩ : Func))) with
    | none => rfl
    | some fs =>
      simp only [Option.map_some']
      rw [ih seen2 (prior ++ s.commands) hinv2]

/-- C6: confirmed.  `generate_functions` equals the compositional per-subset
description in which each subset emits exactly the first occurrences of its
command names relative to the concatenation of all earlier subsets' raw
command lists (global first-occurrence dedup, subset order and in-subset
order preserved); consequently a command name occurring in an earlier
subset is never emitted by a later one. -/
theorem generate_functions_dedup :
    (∀ (subsets : List APISubset) (commands : List (String × Command)),
      generate_functions subsets commands = specFunGroups commands [] subsets) ∧
    (∀ (subsets : List APISubset) (i j : Nat) (hi : i < subsets.length)
       (hj : j < subsets.length), i < j →
       ∀ X ∈ (subsets.get ⟨i, hi⟩).commands,
       X ∉ emitGroup ((subsets.take j).flatMap APISubset.commands)
             (subsets.get ⟨j, hj⟩).commands) := by
  constructor
  · intro subsets commands
    exact goFunctions_spec commands subsets ∅ [] (by simp)
  · intro subsets i j hi hj hij X hX
    apply emitGroup_not_mem
    exact List.mem_flatMap.mpr ⟨subsets.get ⟨i, hi⟩, get_mem_take subsets i j hij hi, hX⟩

/-- C6 witness: a command listed by an earlier subset is not emitted by a
later subset. -/
theorem generate_functions_dedup_witness :
    "glFoo" ∉ emitGroup (([(⟨"F", [], [], ["glFoo"]⟩ : APISubset),
        ⟨"E", [], [], ["glFoo", "glBar"]⟩].take 1).flatMap APISubset.commands)
      (([(⟨"F", [], [], ["glFoo"]⟩ : APISubset),
        ⟨"E", [], [], ["glFoo", "glBar"]⟩].get ⟨1, by decide⟩).commands) :=
  generate_functions_dedup.2 [⟨"F", [], [], ["glFoo"]⟩, ⟨"E", [], [], ["glFoo", "glBar"]⟩]
    0 1 (by decide) (by decide) (by decide) "glFoo" (by decide)

/-! ## `parse_xml_extensions` (C8) -/

theorem append_right_cancel_str {a b : String} (c : String) (h : a ++ c = b ++ c) :
    a = b := by
  have hd := congrArg String.data h
  rw [String.data_append, String.data_append] at hd
  have h2 := List.append_cancel_right hd
  cases a with
  | mk da =>
    cases b with
    | mk db =>
      exact congrArg String.mk h2

theorem warn_msg_beq_false {a b : String} (h : a ≠ b) :
    (a ++ " is not an extension" == b ++ " is not an extension") = false :=
  beq_eq_false_iff_ne.mpr (fun he => h (append_right_cancel_str _ he))

/-- `parse_xml_extensions` splits the request list: present extensions give
subsets (in request order), missing ones give warnings (in request
order). -/
theorem goExtensions_spec (root : XmlNode) (exts : List (String × Bool)) :
    goExtensions root exts =
      ((exts.filter (fun e => (findExtension root e.1).isSome)).map
        (fun e => extSubset ((findExtension root e.1).getD (rootNode [])) e.1),
       (exts.filter (fun e => (findExtension root e.1).isNone)).map
        (fun e => e.1 ++ " is not an extension")) := by
  induction exts with
  | nil => rfl
  | cons e rest ih =>
    obtain ⟨n, r⟩ := e
    cases hf : findExtension root n with
    | none =>
      have hs : ((n, r) :: rest).filter
          (fun e => (findExtension root e.1).isSome) =
            rest.filter (fun e => (findExtension root e.1).isSome) :=
        List.filter_cons_of_neg (p := fun (e : String × Bool) => (findExtension root e.1).isSome)
          (by simp [hf])
      have hw : ((n, r) :: rest).filter
          (fun e => (findExtension root e.1).isNone) =
            (n, r) :: rest.filter (fun e => (findExtension root e.1).isNone) :=
        List.filter_cons_of_pos (p := fun (e : String × Bool) => (findExtension root e.1).isNone)
          (by simp [hf])
      unfold goExtensions
      rw [ih, hf, hs, hw, List.map_cons]
    | some ext =>
      have hs : ((n, r) :: rest).filter
          (fun e => (findExtension root e.1).isSome) =
            (n, r) :: rest.filter (fun e => (findExtension root e.1).isSome) :=
        List.filter_cons_of_pos (p := fun (e : String × Bool) => (findExtension root e.1).isSome)
          (by simp [hf])
      have hw : ((n, r) :: rest).filter
          (fun e => (findExtension root e.1).isNone) =
            rest.filter (fun e => (findExtension root e.1).isNone) :=
        List.filter_cons_of_neg (p := fun (e : String × Bool) => (findExtension root e.1).isNone)
          (by simp [hf])
      unfold goExtensions
      rw [ih, hf, hs, hw, List.map_cons]
      simp [hf]

theorem missing_warning_filter_nil (root : XmlNode) (n : String)
    (rest : List (String × Bool)) (hall : ∀ e ∈ rest, e.1 ≠ n) :
    ((rest.filter (fun e => (findExtension root e.1).isNone)).map
      (fun e => e.1 ++ " is not an extension")).filter
        (fun w => w == n ++ " is not an extension") = [] := by
  induction rest with
  | nil => rfl
  | cons e rest ih =>
    have hne : e.1 ≠ n := hall e (List.mem_cons_self e rest)
    have ih2 := ih (fun u hu => hall u (List.mem_cons_of_mem e hu))
    by_cases hf : (findExtension root e.1).isNone
    · rw [List.filter_cons_of_pos (p := fun (u : String × Bool) => (findExtension root u.1).isNone) hf,
          List.map_cons,
          List.filter_cons_of_neg (p := fun (w : String) => w == n ++ " is not an extension")
            (by simp [warn_msg_beq_false hne]), ih2]
    · rw [List.filter_cons_of_neg (p := fun (u : String × Bool) => (findExtension root u.1).isNone)
          (by simpa using hf), ih2]

/-- C8: confirmed.  A requested extension with no `GL_`-prefixed entry in
the document aborts nothing: the output splits into the subsets of the
present extensions, in request order, and one warning per missing request;
no subset carries the missing name, and (with the distinct names
`parse_profile` guarantees) exactly one warning mentions it. -/
theorem parse_xml_extensions_missing :
    (∀ (root : XmlNode) (exts : List (String × Bool)),
      parse_xml_extensions root exts =
        ((exts.filter (fun e => (findExtension root e.1).isSome)).map
          (fun e => extSubset ((findExtension root e.1).getD (rootNode [])) e.1),
         (exts.filter (fun e => (findExtension root e.1).isNone)).map
          (fun e => e.1 ++ " is not an extension"))) ∧
    (∀ (root : XmlNode) (exts : List (String × Bool)) (n : String) (r : Bool),
      (n, r) ∈ exts → findExtension root n = none →
      ∀ s ∈ (parse_xml_extensions root exts).1, s.name ≠ n) ∧
    (∀ (root : XmlNode) (exts : List (String × Bool)) (n : String) (r : Bool),
      (n, r) ∈ exts → findExtension root n = none →
      List.Pairwise (fun a b => a.1 ≠ b.1) exts →
      (((parse_xml_extensions root exts).2).filter
        (fun w => w == n ++ " is not an extension")).length = 1) := by
  refine ⟨fun root exts => goExtensions_spec root exts, ?_, ?_⟩
  · intro root exts n r hmem hmiss s hs heq
    have hs2 : s ∈ (goExtensions root exts).1 := hs
    rw [goExtensions_spec] at hs2
    simp only [List.mem_map, List.mem_filter] at hs2
    obtain ⟨e, ⟨he1, he2⟩, he3⟩ := hs2
    have hname : s.name = e.1 := by
      rw [← he3]
      rfl
    rw [heq] at hname
    rw [hname] at hmiss
    rw [hmiss] at he2
    cases he2
  · intro root exts n r hmem hmiss hpw
    have hsp := goExtensions_spec root exts
    show (((parse_xml_extensions root exts).2).filter
      (fun w => w == n ++ " is not an extension")).length = 1
    rw [show (parse_xml_extensions root exts).2 = (goExtensions root exts).2 from rfl, hsp]
    clear hsp
    induction exts with
    | nil => cases hmem
    | cons e rest ih =>
      rw [List.pairwise_cons] at hpw
      rcases List.mem_cons.mp hmem with heq | hmem2
      · have hn : e.1 = n := by rw [← heq]
        rw [List.filter_cons_of_pos (p := fun (u : String × Bool) => (findExtension root u.1).isNone)
              (by simp [hn, hmiss]),
            List.map_cons,
            List.filter_cons_of_pos (p := fun (w : String) => w == n ++ " is not an extension")
              (by simp [hn]),
            List.length_cons,
            missing_warning_filter_nil root n rest
              (fun u hu => Ne.symm (hn ▸ hpw.1 u hu))]
        rfl
      · have hne : e.1 ≠ n := fun hh => hpw.1 (n, r) hmem2 (by rw [hh])
        by_cases hf : (findExtension root e.1).isNone
        · rw [List.filter_cons_of_pos (p := fun (u : String × Bool) => (findExtension root u.1).isNone) hf,
              List.map_cons,
              List.filter_cons_of_neg (p := fun (w : String) => w == n ++ " is not an extension")
                (by simp [warn_msg_beq_false hne])]
          exact ih hmem2 hpw.2
        · rw [List.filter_cons_of_neg (p := fun (u : String × Bool) => (findExtension root u.1).isNone)
              (by simpa using hf)]
          exact ih hmem2 hpw.2

/-- C8 witness: requesting present `EXT_foo` and missing `EXT_bar` yields
exactly one warning mentioning `EXT_bar`. -/
theorem parse_xml_extensions_missing_witness :
    (((parse_xml_extensions (rootNode [XmlNode.mk "extensions" [] none
        [XmlNode.mk "extension" [("name", "GL_EXT_foo")] none [] none] none])
        [("EXT_foo", true), ("EXT_bar", false)]).2).filter
      (fun w => w == "EXT_bar" ++ " is not an extension")).length = 1 :=
  parse_xml_extensions_missing.2.2 _ _ "EXT_bar" false (by decide) rfl (by decide)

/-! ## Output assembly safety (C9) -/

theorem genEnumLines_isSome (enums : List (String × String)) (l : List String) :
    ∀ acc : String, (∀ n ∈ l, (enums.lookup n).isSome) →
    (genEnumLines enums acc l).isSome := by
  induction l with
  | nil =>
    intro acc h
    simp [genEnumLines]
  | cons n rest ih =>
    intro acc h
    have hn := h n (List.mem_cons_self n rest)
    obtain ⟨v, hv⟩ := Option.isSome_iff_exists.mp hn
    unfold genEnumLines
    rw [hv]
    exact ih _ (fun m hm => h m (List.mem_cons_of_mem n hm))

theorem goEnumsDecl_isSome (enums : List (String × String)) (subsets : List APISubset) :
    ∀ acc : String, (∀ s ∈ subsets, ∀ n ∈ s.enums, (enums.lookup n).isSome) →
    (goEnumsDecl enums acc subsets).isSome := by
  induction subsets with
  | nil =>
    intro acc h
    simp [goEnumsDecl]
  | cons s rest ih =>
    intro acc h
    unfold goEnumsDecl
    by_cases hse : s.enums.isEmpty
    · rw [if_pos hse]
      exact ih acc (fun u hu => h u (List.mem_cons_of_mem s hu))
    · rw [if_neg hse]
      have hlines := genEnumLines_isSome enums s.enums
        ((if acc ≠ "" then acc ++ "\n\n" else acc) ++ "/* GL_" ++ s.name ++ " */\n")
        (h s (List.mem_cons_self s rest))
      obtain ⟨acc2, hacc2⟩ := Option.isSome_iff_exists.mp hlines
      rw [hacc2]
      exact ih acc2 (fun u hu => h u (List.mem_cons_of_mem s hu))

theorem emitFunctions_isSome (commands : List (String × Command)) (cmds : List String) :
    ∀ seen : Finset String, (∀ n ∈ cmds, (commands.lookup n).isSome) →
    (emitFunctions commands seen cmds).isSome := by
  induction cmds with
  | nil =>
    intro seen h
    simp [emitFunctions]
  | cons n rest ih =>
    intro seen h
    unfold emitFunctions
    by_cases hn : n ∈ seen
    · rw [if_pos hn]
      exact ih seen (fun m hm => h m (List.mem_cons_of_mem n hm))
    · rw [if_neg hn]
      obtain ⟨c, hc⟩ := Option.isSome_iff_exists.mp (h n (List.mem_cons_self n rest))
      rw [hc]
      have hrec := ih (insert n seen) (fun m hm => h m (List.mem_cons_of_mem n hm))
      obtain ⟨⟨fs, seen2⟩, hp⟩ := Option.isSome_iff_exists.mp hrec
      rw [hp]
      rfl

theorem goFunctions_isSome (commands : List (String × Command)) (subsets : List APISubset) :
    ∀ seen : Finset String, (∀ s ∈ subsets, ∀ n ∈ s.commands, (commands.lookup n).isSome) →
    (goFunctions commands seen subsets).isSome := by
  induction subsets with
  | nil =>
    intro seen h
    simp [goFunctions]
  | cons s rest ih =>
    intro seen h
    unfold goFunctions
    obtain ⟨⟨fs, seen2⟩, hp⟩ := Option.isSome_iff_exists.mp
      (emitFunctions_isSome commands s.commands seen (h s (List.mem_cons_self s rest)))
    rw [hp]
    obtain ⟨tail, ht⟩ := Option.isSome_iff_exists.mp
      (ih seen2 (fun u hu => h u (List.mem_cons_of_mem s hu)))
    show (match goFunctions commands seen2 rest with
      | some tail => some ((s.name, fs) :: tail)
      | none => none).isSome = true
    rw [ht]
    rfl

/-- C9: corrected.  The assembler operations never fail PROVIDED every enum
name listed in any subset is a key of the enum mapping and every command
name a key of the command table (`generate_passthru` is total outright).
The upstream pipeline does NOT guarantee this for every document it can
parse: a feature may require an enum that the api filter dropped from the
mapping, and then the unguarded lookup fails (see the counterexample). -/
theorem output_assembler_total (subsets : List APISubset)
    (enums : List (String × String)) (commands : List (String × Command))
    (he : ∀ s ∈ subsets, ∀ n ∈ s.enums, (enums.lookup n).isSome)
    (hc : ∀ s ∈ subsets, ∀ n ∈ s.commands, (commands.lookup n).isSome) :
    (generate_enums subsets enums).isSome ∧
    (generate_functions subsets commands).isSome :=
  ⟨goEnumsDecl_isSome enums subsets "" he, goFunctions_isSome commands subsets ∅ hc⟩

/-- C9 counterexample: a document whose `gl` 1.0 feature requires enum `E`
while `E` is declared only for api `gles2`: the pipeline itself produces a
subset listing `E` and an enum mapping without it, and `generate_enums`
fails (`KeyError` in the source, `none` here). -/
theorem output_assembler_cex :
    parse_xml_enums c9root "gl" = some [] ∧
    parse_xml_features c9root 10 "gl" "" = some [⟨"VERSION_1_0", [], ["E"], []⟩] ∧
    generate_enums [⟨"VERSION_1_0", [], ["E"], []⟩] [] = none := by
  exact ⟨by decide, by decide, by decide⟩

/-- C9 witness: with all names present in the tables both assembler
operations succeed. -/
theorem output_assembler_total_witness :
    (generate_enums [⟨"S", [], ["E"], ["glX"]⟩] [("E", "1")]).isSome ∧
    (generate_functions [⟨"S", [], ["E"], ["glX"]⟩]
      [("glX", ⟨"glX", [], "void", ∅⟩)]).isSome :=
  output_assembler_total _ _ _ (by decide) (by decide)

end Flext

